import Mathlib

/-!
Verification of the BiG-SCAPE network-construction driver (bigscape.py) and
its helper modules (src/big_scape/util.py, src/big_scape/run/base.py,
src/gbk/fileprocessing.py) against the natural-language specification.

Python floats (distances, cutoffs) are embedded as rationals, BGC indices as
naturals, Python lists as Lean lists and Python sets as deduplicated lists
(only membership in them is ever consumed by the code under study).

Functions of this repository that are referenced by the driver but whose
source is not available (generate_network, clusterJsonBatch, sort_bgc) are
either taken as parameters or modelled from the specification; each such
definition says so in its documentation string.
-/

namespace BigScape

/-! ### Generic helpers shared by several embedded functions -/

/-- Python tuple(sorted((x, y))) for a two-element tuple. -/
def sortPair (x y : Nat) : Nat × Nat :=
  if x ≤ y then (x, y) else (y, x)

/-- Python itertools.combinations(l, 2): all pairs of entries taken at two
distinct, increasing positions of l, in iteration order. -/
def combos2 : List Nat → List (Nat × Nat)
  | [] => []
  | x :: xs => xs.map (fun y => (x, y)) ++ combos2 xs

/-- Removal of the elements sitting at the listed (absolute) positions,
counting positions from i. The driver deletes the collected row indices in
descending order (for idx in sorted(DEL_LIST, reverse=True): del m[idx]),
which leaves the not-yet-deleted lower positions unshifted, so the combined
effect is exactly removal of the originally collected positions. -/
def removeAt (dels : List Nat) : Nat → List α → List α
  | _, [] => []
  | i, x :: xs =>
    if i ∈ dels then removeAt dels (i + 1) xs else x :: removeAt dels (i + 1) xs

/-- Test for a needle starting at the head of a character list. -/
def leadsIn : List Char → List Char → Bool
  | [], _ => true
  | _ :: _, [] => false
  | n :: ns, h :: hs => n = h && leadsIn ns hs

/-- Test for a needle occurring somewhere in a character list. -/
def hasSub (needle : List Char) : List Char → Bool
  | [] => leadsIn needle []
  | h :: hs => leadsIn needle (h :: hs) || hasSub needle hs

/-- Python substring containment (needle in hay). -/
def pyIn (needle hay : String) : Bool :=
  hasSub needle.data hay.data

/-- Lowering of one ASCII character, as Python str.lower does on ASCII. -/
def lowCh (c : Char) : Char :=
  if 'A' ≤ c ∧ c ≤ 'Z' then Char.ofNat (c.toNat + 32) else c

/-- Python str.lower (all strings handled by the driver are ASCII). -/
def pyLower (s : String) : String :=
  ⟨s.data.map lowCh⟩

/-- Python str.strip: leading and trailing whitespace removed. -/
def pyStrip (s : String) : String :=
  ⟨(((s.data.dropWhile (fun c => c.isWhitespace)).reverse.dropWhile
      (fun c => c.isWhitespace)).reverse)⟩

/-- Splitting of a character list at every occurrence of a separator. -/
def splitChar (sep : Char) : List Char → List (List Char)
  | [] => [[]]
  | c :: cs =>
    match splitChar sep cs, decide (c = sep) with
    | r, true => [] :: r
    | [], false => [[c]]
    | h :: t, false => (c :: h) :: t

/-- Python s.split("."), a non-empty list of (possibly empty) fragments. -/
def pySplitDot (s : String) : List String :=
  (splitChar '.' s.data).map (fun l => ⟨l⟩)

/-! ### The distance matrix and the network builder

bigscape.py keeps the per-group distance matrix as a list of rows
[clusterIdxA, clusterIdxB, distance, ...]; the driver under study reads a
row's two endpoint indices (int(row[0]), int(row[1])) and its distance
(row[2]).  The remaining columns (sub-scores and alignment metadata) are
never consulted by the logic verified here and are left out of the record. -/

/-- One row of the network matrix (spec: DistanceRecord), restricted to the
fields the driver logic reads. -/
structure Row where
  a : Nat
  b : Nat
  dist : ℚ
deriving DecidableEq, Repr

/-- Two rows record the same unordered pair of endpoint indices. -/
def samePair (r s : Row) : Prop :=
  (r.a = s.a ∧ r.b = s.b) ∨ (r.a = s.b ∧ r.b = s.a)

/-- Modelled from the spec: big_scape.generate_network (its source is not
part of the provided files) computes one DistanceRecord per requested
candidate pair, the pair distance function d being the pairwise BGC distance
metric.  The class tag carried with each pair does not influence which rows
exist and is dropped. -/
def generate_network (d : Nat → Nat → ℚ) (pairs : List (Nat × Nat)) : List Row :=
  pairs.map (fun p => { a := p.1, b := p.2, dist := d p.1 p.2 })

/-- bigscape.py 479/710: all-versus-all candidate pairs of a class group,
PAIRS = set(tuple(sorted(combo)) for combo in combinations(members, 2)). -/
def allPairs (members : List Nat) : List (Nat × Nat) :=
  ((combos2 members).map (fun p => sortPair p.1 p.2)).dedup

/-- bigscape.py 476/708: query-mode candidate pairs,
PAIRS = set(tuple(sorted(combo)) for combo in
combinations_product([QUERY_BGC_IDX], members)). -/
def queryPairs (q : Nat) (members : List Nat) : List (Nat × Nat) :=
  (members.map (fun y => sortPair q y)).dedup

/-- bigscape.py 504-516/728-741, the NEW_SET accumulated by the query-mode
scan of the first-phase matrix: rows with equal endpoints are skipped, a row
within the loosest cutoff contributes its non-query endpoint. -/
def newSetOf (q : Nat) (max_cutoff : ℚ) (matrix : List Row) : List Nat :=
  matrix.filterMap (fun r =>
    if r.a = r.b then none
    else if r.dist ≤ max_cutoff then some (if r.a = q then r.b else r.a)
    else none)

/-- bigscape.py 504-516/728-741, the DEL_LIST of the same scan: positions
(counted from i) of the rows with distinct endpoints and distance above the
loosest cutoff. -/
def delListFrom (max_cutoff : ℚ) : Nat → List Row → List Nat
  | _, [] => []
  | i, r :: rs =>
    if r.a = r.b then delListFrom max_cutoff (i + 1) rs
    else if r.dist ≤ max_cutoff then delListFrom max_cutoff (i + 1) rs
    else i :: delListFrom max_cutoff (i + 1) rs

/-- bigscape.py 475-537 (mix) and 707-762 (per class), which are line-for-line
identical: the two-phase query-mode network construction.  Phase one computes
the records of the (query, other) candidate pairs; the scan then collects
NEW_SET and deletes the DEL_LIST rows; phase two computes all pairwise records
inside NEW_SET and appends them; the member list becomes NEW_SET plus the
query index, sorted ascending (MIX_SET = NEW_SET; MIX_SET.extend([q]);
MIX_SET.sort()). -/
def queryExpansion (d : Nat → Nat → ℚ) (q : Nat) (max_cutoff : ℚ)
    (members : List Nat) : List Row × List Nat :=
  let network_matrix := generate_network d (queryPairs q members)
  let new_set := newSetOf q max_cutoff network_matrix
  let pruned := removeAt (delListFrom max_cutoff 0 network_matrix) 0 network_matrix
  let matrix_new_set := generate_network d (allPairs new_set)
  (pruned ++ matrix_new_set, List.insertionSort (· ≤ ·) (new_set ++ [q]))

/-- bigscape.py 812-813: the per-class guard.  A class group left with fewer
than two members after pruning/expansion is skipped silently (continue):
neither network files nor family/clan output are produced for it at any
cutoff.  The payload of some models reaching the output stages with the final
matrix and member list. -/
def classStageOutput (matrix : List Row) (members : List Nat) :
    Option (List Row × List Nat) :=
  if members.length < 2 then none else some (matrix, members)

/-- The per-class pipeline in query mode: expansion followed by the size
guard (bigscape.py 707-762 then 812-813). -/
def perClassQuery (d : Nat → Nat → ℚ) (q : Nat) (max_cutoff : ℚ)
    (members : List Nat) : Option (List Row × List Nat) :=
  let r := queryExpansion d q max_cutoff members
  classStageOutput r.1 r.2

/-! ### MIBiG-only component pruning (bigscape.py 552-588 and 774-808)

The two blocks are line-for-line identical; both build a networkx graph on
the class members with one edge per matrix row whose distance is within the
loosest cutoff, collect every connected component consisting solely of MIBiG
reference indices, delete the rows of the edges inside those components from
the matrix and delete the collected members from the class member list. -/

/-- The edges added to the networkx graph N (bigscape.py 558-561/780-783):
one per matrix row with distance within the loosest cutoff. -/
def edgesOf (max_cutoff : ℚ) (matrix : List Row) : List (Nat × Nat) :=
  matrix.filterMap (fun r => if r.dist ≤ max_cutoff then some (r.a, r.b) else none)

/-- Presence of an undirected edge between two nodes. -/
def Er (edges : List (Nat × Nat)) (x y : Nat) : Prop :=
  (x, y) ∈ edges ∨ (y, x) ∈ edges

/-- Connectivity in the undirected graph of an edge list. -/
def Reach (edges : List (Nat × Nat)) : Nat → Nat → Prop :=
  Relation.ReflTransGen (Er edges)

/-- networkx Graph.add_node: a new singleton cell unless the node is already
in some cell. -/
def addNode (comps : List (List Nat)) (v : Nat) : List (List Nat) :=
  if comps.any (fun c => decide (v ∈ c)) then comps else [v] :: comps

/-- networkx Graph.add_edge: both endpoints are added as nodes and every cell
holding either endpoint is merged into one. -/
def mergeCells (comps : List (List Nat)) (a b : Nat) : List (List Nat) :=
  let comps := addNode (addNode comps a) b
  ((comps.filter (fun c => decide (a ∈ c) || decide (b ∈ c))).flatten) ::
    comps.filter (fun c => !(decide (a ∈ c) || decide (b ∈ c)))

/-- The connected components of the graph on the given nodes and edges,
computed as networkx builds them (up to the ordering of the cells, which the
driver never relies on): every node starts as a singleton cell and every
edge merges the cells of its endpoints. -/
def componentsList (nodes : List Nat) (edges : List (Nat × Nat)) : List (List Nat) :=
  edges.foldl (fun comps e => mergeCells comps e.1 e.2) (nodes.foldl addNode [])

/-- bigscape.py 563-569/785-791: MIBIG_SET_DEL, every member of a connected
component whose intersection with MIBIG_SET_INDICES is the whole component. -/
def mibigDel (members mibig_set_indices : List Nat) (max_cutoff : ℚ)
    (matrix : List Row) : List Nat :=
  ((componentsList members (edgesOf max_cutoff matrix)).filter
    (fun comp => comp.all (fun x => decide (x ∈ mibig_set_indices)))).flatten

/-- bigscape.py 571-588/793-808: the rows named by the edges of the subgraph
induced on MIBIG_SET_DEL are deleted from the matrix (an edge carries the
index of the row that created it; the candidate-pair sets produce at most one
row per unordered pair, so those edges name exactly the rows whose distance
is within the cutoff and whose endpoints are both marked), and the marked
members are deleted from the class member list (the member lists are built in
ascending index order, so deleting the position bgc_to_class_idx[v] of each
marked v in descending order of v removes exactly the marked values). -/
def mibigPrune (members mibig_set_indices : List Nat) (max_cutoff : ℚ)
    (matrix : List Row) : List Row × List Nat :=
  let del := mibigDel members mibig_set_indices max_cutoff matrix
  (matrix.filter (fun r =>
     !(decide (r.dist ≤ max_cutoff) && decide (r.a ∈ del) && decide (r.b ∈ del))),
   members.filter (fun v => decide (v ∉ del)))

/-- Modelled from the spec: clusterJsonBatch (the FamilyClusterer; its source
is not among the provided files) forms, at each cutoff, the families as the
connected components of the matrix rows within that cutoff over the group
members, and discards any component composed entirely of reference BGCs, so
a reported family is a component surviving that filter. -/
def reportedFamilies (cutoff : ℚ) (matrix : List Row)
    (members mibig_set_indices : List Nat) : List (List Nat) :=
  (componentsList members (edgesOf cutoff matrix)).filter
    (fun comp => !comp.all (fun x => decide (x ∈ mibig_set_indices)))

/-! ### Family data remapping (bigscape.py 888-902, util.py 61-76) -/

/-- One family record as the remapping step sees it: the member list (global
cluster indices before the update, input-only positions after it) and the
list of reference cluster names split off by the update. -/
structure Family where
  members : List Nat
  mibig : List String
deriving DecidableEq, Repr

/-- One entry of RUNDATA_NETWORKS_PER_RUN: the family list of one network. -/
structure NetworkData where
  families : List Family
deriving DecidableEq, Repr

/-- src/big_scape/util.py 68-74, one iteration of the member loop of
update_family_data: a member found in input_clusters_idx appends its position
in that list to new_members, any other member appends its cluster name to the
mibig list when that name is a reference name (cluster_names[bgc_idx] is
modelled with an unused default; the callers only pass in-range indices). -/
def familyLoopStep (input_clusters_idx : List Nat) (cluster_names : List String)
    (mibig_set : List String) (acc : List Nat × List String) (bgc_idx : Nat) :
    List Nat × List String :=
  if bgc_idx ∈ input_clusters_idx then
    (acc.1 ++ [input_clusters_idx.indexOf bgc_idx], acc.2)
  else
    let cluster_name := cluster_names.getD bgc_idx ""
    if cluster_name ∈ mibig_set then (acc.1, acc.2 ++ [cluster_name]) else acc

/-- src/big_scape/util.py 65-76, the per-family body of update_family_data:
the member loop run on empty accumulators, its results written into the
family record. -/
def updateFamilyRecord (input_clusters_idx : List Nat) (cluster_names : List String)
    (mibig_set : List String) (f : Family) : Family :=
  let acc := f.members.foldl
    (familyLoopStep input_clusters_idx cluster_names mibig_set) ([], [])
  { members := acc.1, mibig := acc.2 }

/-- src/big_scape/util.py 61-76, update_family_data: every family of every
network of every entry of the networks-per-run mapping is rewritten; the
mapping is embedded as the list of its entries in iteration order (its keys
are never read). -/
def update_family_data (rundata_networks_per_run : List (List NetworkData))
    (input_clusters_idx : List Nat) (cluster_names : List String)
    (mibig_set : List String) : List (List NetworkData) :=
  rundata_networks_per_run.map (fun networks =>
    networks.map (fun network =>
      { families := network.families.map
          (updateFamilyRecord input_clusters_idx cluster_names mibig_set) }))

/-- bigscape.py 893-902, the body of the inline family-update loop (the
variable names differ from util.py but the statements coincide). -/
def inlineFamilyRecordUpdate (input_clusters_idx : List Nat)
    (cluster_names : List String) (mibig_set : List String) (f : Family) : Family :=
  let acc := f.members.foldl
    (fun (acc : List Nat × List String) bgcIdx =>
      if bgcIdx ∈ input_clusters_idx then
        (acc.1 ++ [input_clusters_idx.indexOf bgcIdx], acc.2)
      else
        let clusterName := cluster_names.getD bgcIdx ""
        if clusterName ∈ mibig_set then (acc.1, acc.2 ++ [clusterName]) else acc)
    ([], [])
  { members := acc.1, mibig := acc.2 }

/-- bigscape.py 888-902, the inline family-update loop at the end of the
driver. -/
def inlineFamilyDataUpdate (rundata_networks_per_run : List (List NetworkData))
    (input_clusters_idx : List Nat) (cluster_names : List String)
    (mibig_set : List String) : List (List NetworkData) :=
  rundata_networks_per_run.map (fun networks =>
    networks.map (fun network =>
      { families := network.families.map
          (inlineFamilyRecordUpdate input_clusters_idx cluster_names mibig_set) }))

/-- bigscape.py 855-859: INPUT_CLUSTERS_IDX, the ascending list of positions
of the cluster names that are not MIBiG reference names. -/
def inputClustersIdx (cluster_names : List String) (mibig_set : List String) : List Nat :=
  (List.range cluster_names.length).filter
    (fun idx => decide (cluster_names.getD idx "" ∉ mibig_set))

/-! ### GenBank import (src/gbk/fileprocessing.py) -/

/-- One record of a parsed GenBank file, reduced to what the control flow of
process_gbk_file consumes: the sequence length, the product annotations of
its cluster/region features, and the total protein length of its CDS
features. -/
structure GbkRecord where
  seqLen : Nat
  products : List String
  protLen : Nat
deriving DecidableEq, Repr

/-- A GenBank file as process_gbk_file sees it: its base name and the outcome
of Biopython SeqIO.parse (a ValueError message or a record list). -/
structure GbkFile where
  name : String
  parse : Except String (List GbkRecord)
deriving Repr

/-- process_gbk_file 289-299: reduction of the accumulated product
annotations to the product atoms the class decision is made from.  The code
builds a set, joins it with a dot and later splits on the dot again;
antiSMASH product labels are dot-free, so the atoms reaching sort_bgc are:
the sole product when only one distinct product exists, every product other
than the label other when that label occurs among several, and every
distinct product otherwise; with no product annotation at all the join is
the empty string, which splits back into a single empty atom. -/
def productAtoms (product_list_per_record : List String) : List String :=
  let product_set := product_list_per_record.dedup
  if product_set.length = 1 then product_set
  else if "other" ∈ product_set then product_set.filter (fun p => decide (p ≠ "other"))
  else if product_set = [] then [""]
  else product_set

/-- process_gbk_file 303-307: the lower-cased sort_bgc classes of the product
atoms, extended with the hybrid class when both an NRPS and a PKS class are
present.  sort_bgc (src/legacy/bgctools.py) is not among the provided files
and is taken as a parameter. -/
def subproductSet (sort_bgc : String → String) (atoms : List String) : List String :=
  let subproduct := (atoms.map (fun p => pyLower (sort_bgc p))).dedup
  if "nrps" ∈ subproduct ∧ ("pksi" ∈ subproduct ∨ "pksother" ∈ subproduct) then
    subproduct ++ ["pks-nrp_hybrids"]
  else subproduct

/-- The three shapes of value process_gbk_file can return: a bare return
(None) from the ValueError handler, False from the invalid-class branch, and
otherwise the (adding_sequence, bgc_info, gen_bank_dict) triple.  The two
dictionaries are reduced to their key lists; no claim reads their values. -/
inductive GbkResult where
  | retNone : GbkResult
  | retFalse : GbkResult
  | retTriple (adding_sequence : Bool) (bgc_info : List String)
      (gen_bank_dict : List String) : GbkResult
deriving DecidableEq, Repr

/-- src/gbk/fileprocessing.py 75-411, process_gbk_file, reduced to the
control flow deciding the shape of its return value: a parse error returns
None (line 119); a file above the minimum size whose predicted classes meet
none of the run's valid classes returns False (line 311); every other file
returns the triple (line 411) - with empty dictionaries when the size bound
fails, and otherwise with the file recorded and gen_bank_dict filled when
protein sequence was found.  save_fasta stands for the cache freshness check
of lines 106-111 and only feeds adding_sequence. -/
def process_gbk_filef (run_valid_classes : List String) (sort_bgc : String → String)
    (min_bgc_size : Nat) (save_fasta : Bool) (file : GbkFile) : GbkResult :=
  match file.parse with
  | Except.error _ => GbkResult.retNone
  | Except.ok records =>
    let bgc_size := (records.map (fun r => r.seqLen)).sum
    if bgc_size > min_bgc_size then
      let atoms := productAtoms ((records.map (fun r => r.products)).flatten)
      let subproduct := subproductSet sort_bgc atoms
      if run_valid_classes.all (fun v => decide (v ∉ subproduct)) then
        GbkResult.retFalse
      else
        let total_seq_length : Nat := (records.map (fun r => r.protLen)).sum
        GbkResult.retTriple (decide (0 < total_seq_length) && save_fasta) [file.name]
          (if 0 < total_seq_length then [file.name] else [])
    else GbkResult.retTriple false [] []

/-- src/gbk/fileprocessing.py 448-463: the per-file inclusion filters of
get_gbk_files: with the include list ["*"] every file passes the word
filters, otherwise the name must contain an include word and, when an
exclude list is given, no exclude word; names containing the _ORF marker are
always skipped. -/
def passesFilters (include_gbk exclude_gbk : List String) (fname : String) : Bool :=
  (if include_gbk.length = 1 ∧ include_gbk.getD 0 "" = "*" then true
   else include_gbk.any (fun w => pyIn w fname) &&
     !(exclude_gbk.any (fun w => pyIn w fname))) &&
  !(pyIn "_ORF" fname)

/-- src/gbk/fileprocessing.py 466-467: the unconditional three-way unpacking
of the value process_gbk_file returned.  Only the triple shape unpacks; a
bare None or a False raises TypeError, modelled as the error outcome. -/
def unpack3 : GbkResult → Except String (Bool × List String × List String)
  | GbkResult.retTriple s b g => Except.ok (s, b, g)
  | GbkResult.retNone => Except.error "TypeError: cannot unpack non-iterable NoneType object"
  | GbkResult.retFalse => Except.error "TypeError: cannot unpack non-iterable bool object"

/-- src/gbk/fileprocessing.py 448-473, the file loop of get_gbk_files: each
file passing the filters is processed and its result unpacked into the
accumulated dictionaries; an unpack failure aborts the whole import with the
TypeError. -/
def get_gbk_files_loop (run_valid_classes : List String)
    (sort_bgc : String → String) (min_bgc_size : Nat) (save_fasta : Bool)
    (include_gbk exclude_gbk : List String) :
    List GbkFile → List String × List String →
      Except String (List String × List String)
  | [], acc => Except.ok acc
  | f :: fs, acc =>
    if passesFilters include_gbk exclude_gbk f.name then
      match unpack3 (process_gbk_filef run_valid_classes sort_bgc min_bgc_size
          save_fasta f) with
      | Except.error e => Except.error e
      | Except.ok (_, bi, gd) =>
        get_gbk_files_loop run_valid_classes sort_bgc min_bgc_size save_fasta
          include_gbk exclude_gbk fs (acc.1 ++ bi, acc.2 ++ gd)
    else
      get_gbk_files_loop run_valid_classes sort_bgc min_bgc_size save_fasta
        include_gbk exclude_gbk fs acc

/-- src/gbk/fileprocessing.py 414-492, get_gbk_files over an already-listed
set of files: the loop started on empty dictionaries. -/
def get_gbk_files (run_valid_classes : List String) (sort_bgc : String → String)
    (min_bgc_size : Nat) (save_fasta : Bool) (include_gbk exclude_gbk : List String)
    (files : List GbkFile) : Except String (List String × List String) :=
  get_gbk_files_loop run_valid_classes sort_bgc min_bgc_size save_fasta
    include_gbk exclude_gbk files ([], [])

/-! ### Run configuration and BGC sorting (run/base.py, bigscape.py 636-676) -/

/-- src/big_scape/run/base.py 107-113, Run.set_valid_classes: the lower-cased
weight-table keys minus the stripped, lower-cased user-banned classes (both
collections are Python sets; they are embedded as deduplicated lists). -/
def setValidClasses (bgc_class_weight_keys banned_classes : List String) : List String :=
  let valid_classes := (bgc_class_weight_keys.map pyLower).dedup
  let user_banned_classes := (banned_classes.map (fun a => pyLower (pyStrip a))).dedup
  valid_classes.filter (fun v => decide (v ∉ user_banned_classes))

/-- bigscape.py 643-676, the append events one cluster contributes to
RUN.distance.bgc_classes: the main append guarded by the membership of its
own lowered predicted class, and with the hybrids option the extra appends
of PKS-NRP hybrids into the pure classes and of dotted Others products into
their sub-classes, each guarded by the membership of the target class. -/
def sortClassAppendsOne (valid_classes : List String) (hybrids : Bool)
    (sort_bgc : String → String) (idx : Nat) (product : String) :
    List (String × Nat) :=
  let predicted_class := sort_bgc product
  (if pyLower predicted_class ∈ valid_classes then [(predicted_class, idx)] else []) ++
  (if hybrids then
    (if predicted_class = "PKS-NRP_Hybrids" then
      (if "nrps" ∈ valid_classes then [("NRPS", idx)] else []) ++
      (if pyIn "t1pks" product && decide ("pksi" ∈ valid_classes) then
        [("PKSI", idx)] else []) ++
      (if !pyIn "t1pks" product && decide ("pksother" ∈ valid_classes) then
        [("PKSother", idx)] else [])
     else []) ++
    (if predicted_class = "Others" ∧ pyIn "." product then
      (((pySplitDot product).map sort_bgc).dedup.filter
        (fun s => decide (pyLower s ∈ valid_classes) && decide (s ≠ "Others"))).map
        (fun s => (s, idx))
     else [])
   else [])

/-- bigscape.py 636-676, the whole sorting loop over the enumerated cluster
names, rendered as the list of append events on the per-class working sets.
products lists the product annotation of each cluster index in ascending
index order, and skip models the domain include-list filter of lines
637-642. -/
def sortClassAppends (valid_classes : List String) (hybrids : Bool)
    (sort_bgc : String → String) (skip : Nat → Bool) (products : List String) :
    List (String × Nat) :=
  (products.enum.map (fun p =>
    if skip p.1 then []
    else sortClassAppendsOne valid_classes hybrids sort_bgc p.1 p.2)).flatten

/-! ### Lemmas about the indexed row deletion -/

/-- Every position collected by delListFrom is at least the start index. -/
lemma delListFrom_ge (c : ℚ) :
    ∀ (m : List Row) (i j : Nat), j ∈ delListFrom c i m → i ≤ j := by
  intro m
  induction m with
  | nil => intro i j h; simp [delListFrom] at h
  | cons r rs ih =>
    intro i j h
    simp only [delListFrom] at h
    by_cases h1 : r.a = r.b
    · simp only [h1, if_pos rfl] at h
      exact Nat.le_of_succ_le (ih (i + 1) j h)
    · rw [if_neg h1] at h
      by_cases h2 : r.dist ≤ c
      · rw [if_pos h2] at h
        exact Nat.le_of_succ_le (ih (i + 1) j h)
      · rw [if_neg h2] at h
        rcases List.mem_cons.1 h with h3 | h3
        · omega
        · exact Nat.le_of_succ_le (ih (i + 1) j h3)

/-- A deletion position below the running index never fires. -/
lemma removeAt_cons_lt {α : Type _} (dels : List Nat) (k : Nat) :
    ∀ (xs : List α) (i : Nat), k < i →
      removeAt (k :: dels) i xs = removeAt dels i xs := by
  intro xs
  induction xs with
  | nil => intro i _; rfl
  | cons x xs ih =>
    intro i hk
    simp only [removeAt, List.mem_cons]
    have hne : ¬i = k := by omega
    by_cases hmem : i ∈ dels
    · rw [if_pos (Or.inr hmem), if_pos hmem, ih (i + 1) (by omega)]
    · rw [if_neg (by tauto), if_neg hmem, ih (i + 1) (by omega)]

/-- The descending deletion of the DEL_LIST positions is the filter keeping
the rows the query scan retains: equal endpoints or distance within the
loosest cutoff. -/
lemma removeAt_delListFrom (c : ℚ) :
    ∀ (m : List Row) (i : Nat),
      removeAt (delListFrom c i m) i m =
        m.filter (fun r => decide (r.a = r.b) || decide (r.dist ≤ c)) := by
  intro m
  induction m with
  | nil => intro i; rfl
  | cons r rs ih =>
    intro i
    simp only [delListFrom, List.filter_cons]
    by_cases h1 : r.a = r.b
    · rw [if_pos h1]
      have hnot : i ∉ delListFrom c (i + 1) rs := fun h =>
        absurd (delListFrom_ge c rs (i + 1) i h) (by omega)
      simp only [removeAt]
      rw [if_neg hnot, ih (i + 1)]
      simp [h1]
    · rw [if_neg h1]
      by_cases h2 : r.dist ≤ c
      · rw [if_pos h2]
        have hnot : i ∉ delListFrom c (i + 1) rs := fun h =>
          absurd (delListFrom_ge c rs (i + 1) i h) (by omega)
        simp only [removeAt]
        rw [if_neg hnot, ih (i + 1)]
        simp [h1, h2]
      · rw [if_neg h2]
        simp only [removeAt]
        rw [if_pos (List.mem_cons_self i _),
          removeAt_cons_lt _ i rs (i + 1) (by omega), ih (i + 1)]
        simp [h1, h2]

/-! ### Lemmas about the candidate-pair enumerations -/

/-- The normalised pair is ordered. -/
lemma sortPair_le (x y : Nat) : (sortPair x y).1 ≤ (sortPair x y).2 := by
  unfold sortPair; split <;> simp <;> omega

/-- The normalised pair is one of the two orders. -/
lemma sortPair_cases (x y : Nat) : sortPair x y = (x, y) ∨ sortPair x y = (y, x) := by
  unfold sortPair; split <;> simp

/-- Normalisation ignores the order of the operands. -/
lemma sortPair_comm (x y : Nat) : sortPair x y = sortPair y x := by
  unfold sortPair
  rcases Nat.lt_trichotomy x y with h | rfl | h
  · rw [if_pos (Nat.le_of_lt h), if_neg (by omega)]
  · simp
  · rw [if_neg (by omega), if_pos (Nat.le_of_lt h)]

/-- The normalised pair degenerates only on equal operands. -/
lemma sortPair_fst_eq_snd_iff (x y : Nat) :
    (sortPair x y).1 = (sortPair x y).2 ↔ x = y := by
  unfold sortPair; split <;> constructor <;> intro h <;> simp_all

/-- Fixing one operand, normalisation determines the other. -/
lemma sortPair_right_inj {q y y' : Nat} (h : sortPair q y = sortPair q y') :
    y = y' := by
  rcases sortPair_cases q y with h1 | h1 <;> rcases sortPair_cases q y' with h2 | h2 <;>
    rw [h1, h2] at h <;> cases h <;> simp_all

/-- Membership in the positional pair list of combinations(l, 2). -/
lemma mem_combos2_endpoints :
    ∀ {l : List Nat} {p : Nat × Nat}, p ∈ combos2 l → p.1 ∈ l ∧ p.2 ∈ l := by
  intro l
  induction l with
  | nil => intro p h; simp [combos2] at h
  | cons x xs ih =>
    intro p h
    simp only [combos2, List.mem_append, List.mem_map] at h
    rcases h with ⟨y, hy, hp⟩ | h
    · subst hp; exact ⟨List.mem_cons_self _ _, List.mem_cons_of_mem _ hy⟩
    · exact ⟨List.mem_cons_of_mem _ (ih h).1, List.mem_cons_of_mem _ (ih h).2⟩

/-- On a duplicate-free list, pairs of distinct positions carry distinct
values. -/
lemma combos2_ne_of_nodup :
    ∀ {l : List Nat}, l.Nodup → ∀ {p : Nat × Nat}, p ∈ combos2 l → p.1 ≠ p.2 := by
  intro l
  induction l with
  | nil => intro _ p h; simp [combos2] at h
  | cons x xs ih =>
    intro hnd p h
    simp only [combos2, List.mem_append, List.mem_map] at h
    rcases h with ⟨y, hy, hp⟩ | h
    · subst hp
      intro hxy
      simp only at hxy
      exact (List.nodup_cons.1 hnd).1 (hxy ▸ hy)
    · exact ih (List.nodup_cons.1 hnd).2 h

/-- Two distinct values of a list appear as a combination in one of the two
orders. -/
lemma combos2_cover :
    ∀ {l : List Nat} {a b : Nat}, a ∈ l → b ∈ l → a ≠ b →
      (a, b) ∈ combos2 l ∨ (b, a) ∈ combos2 l := by
  intro l
  induction l with
  | nil => intro a b h; simp at h
  | cons x xs ih =>
    intro a b ha hb hne
    rcases List.mem_cons.1 ha with rfl | ha'
    · left
      have hb' : b ∈ xs := by
        rcases List.mem_cons.1 hb with rfl | hb'
        · exact absurd rfl hne
        · exact hb'
      simp only [combos2, List.mem_append, List.mem_map]
      exact Or.inl ⟨b, hb', rfl⟩
    · rcases List.mem_cons.1 hb with rfl | hb'
      · right
        simp only [combos2, List.mem_append, List.mem_map]
        exact Or.inl ⟨a, ha', rfl⟩
      · rcases ih ha' hb' hne with h | h
        · exact Or.inl (by simp only [combos2, List.mem_append]; exact Or.inr h)
        · exact Or.inr (by simp only [combos2, List.mem_append]; exact Or.inr h)

/-- Membership in the all-versus-all candidate-pair set, for duplicate-free
member lists. -/
lemma mem_allPairs_iff {l : List Nat} (hnd : l.Nodup) {p : Nat × Nat} :
    p ∈ allPairs l ↔ ∃ a b, a ∈ l ∧ b ∈ l ∧ a ≠ b ∧ p = sortPair a b := by
  unfold allPairs
  rw [List.mem_dedup, List.mem_map]
  constructor
  · rintro ⟨q, hq, rfl⟩
    exact ⟨q.1, q.2, (mem_combos2_endpoints hq).1, (mem_combos2_endpoints hq).2,
      combos2_ne_of_nodup hnd hq, rfl⟩
  · rintro ⟨a, b, ha, hb, hne, rfl⟩
    rcases combos2_cover ha hb hne with h | h
    · exact ⟨(a, b), h, rfl⟩
    · exact ⟨(b, a), h, (sortPair_comm a b).symm ▸ rfl⟩

/-- Endpoints and normalisation of the all-versus-all pairs, for arbitrary
member lists. -/
lemma mem_allPairs_endpoints {l : List Nat} {p : Nat × Nat} (h : p ∈ allPairs l) :
    p.1 ∈ l ∧ p.2 ∈ l ∧ p.1 ≤ p.2 := by
  unfold allPairs at h
  rw [List.mem_dedup, List.mem_map] at h
  obtain ⟨q, hq, rfl⟩ := h
  obtain ⟨h1, h2⟩ := mem_combos2_endpoints hq
  rcases sortPair_cases q.1 q.2 with hc | hc <;>
    exact ⟨by rw [hc]; assumption, by rw [hc]; assumption, sortPair_le q.1 q.2⟩

/-- The candidate-pair sets carry no duplicate pair. -/
lemma allPairs_nodup (l : List Nat) : (allPairs l).Nodup :=
  List.nodup_dedup _

/-- Membership in the query-mode candidate-pair set. -/
lemma mem_queryPairs {q : Nat} {l : List Nat} {p : Nat × Nat} :
    p ∈ queryPairs q l ↔ ∃ y ∈ l, p = sortPair q y := by
  unfold queryPairs
  rw [List.mem_dedup, List.mem_map]
  constructor
  · rintro ⟨y, hy, rfl⟩; exact ⟨y, hy, rfl⟩
  · rintro ⟨y, hy, rfl⟩; exact ⟨y, hy, rfl⟩

/-- The query-mode candidate pairs carry no duplicate pair. -/
lemma queryPairs_nodup (q : Nat) (l : List Nat) : (queryPairs q l).Nodup :=
  List.nodup_dedup _

/-- Every query-mode candidate pair has the query as an endpoint. -/
lemma queryPairs_has_q {q : Nat} {l : List Nat} {p : Nat × Nat}
    (h : p ∈ queryPairs q l) : p.1 = q ∨ p.2 = q := by
  obtain ⟨y, _, rfl⟩ := mem_queryPairs.1 h
  rcases sortPair_cases q y with hc | hc <;> rw [hc]
  · exact Or.inl rfl
  · exact Or.inr rfl

/-- Membership in a generated network matrix. -/
lemma mem_generate_network {d : Nat → Nat → ℚ} {ps : List (Nat × Nat)} {r : Row} :
    r ∈ generate_network d ps ↔ ∃ p ∈ ps, r = { a := p.1, b := p.2, dist := d p.1 p.2 } := by
  unfold generate_network
  rw [List.mem_map]
  constructor
  · rintro ⟨p, hp, rfl⟩; exact ⟨p, hp, rfl⟩
  · rintro ⟨p, hp, rfl⟩; exact ⟨p, hp, rfl⟩

/-! ### Lemmas about the query scan (NEW_SET) -/

/-- On a normalised pair with the query on one side, the scan picks the other
side. -/
lemma sortPair_other {q y : Nat} (hne : q ≠ y) :
    (if (sortPair q y).1 = q then (sortPair q y).2 else (sortPair q y).1) = y := by
  rcases sortPair_cases q y with hc | hc <;> rw [hc]
  · simp
  · simp only
    rw [if_neg (fun h => hne h.symm)]

/-- A query-scan value is never the query index itself. -/
lemma newSetOf_ne_q {q : Nat} {c : ℚ} {m : List Row} {x : Nat}
    (h : x ∈ newSetOf q c m) : x ≠ q := by
  unfold newSetOf at h
  rw [List.mem_filterMap] at h
  obtain ⟨r, _, hr⟩ := h
  split_ifs at hr with h1 h2 h3
  · cases Option.some.inj hr
    intro hx
    exact h1 (h3.trans hx.symm)
  · cases Option.some.inj hr
    exact h3

/-- The scan of a generated matrix acts pair by pair. -/
lemma newSetOf_generate (d : Nat → Nat → ℚ) (q : Nat) (c : ℚ)
    (ps : List (Nat × Nat)) :
    newSetOf q c (generate_network d ps) = ps.filterMap (fun p =>
      if p.1 = p.2 then none
      else if d p.1 p.2 ≤ c then some (if p.1 = q then p.2 else p.1)
      else none) := by
  unfold newSetOf generate_network
  rw [List.filterMap_map]
  rfl

/-- The scan outcome on one query-mode candidate pair. -/
lemma queryPair_scan (d : Nat → Nat → ℚ) (q : Nat) (c : ℚ) (y x : Nat) :
    ((if (sortPair q y).1 = (sortPair q y).2 then none
      else if d (sortPair q y).1 (sortPair q y).2 ≤ c then
        some (if (sortPair q y).1 = q then (sortPair q y).2 else (sortPair q y).1)
      else none) = some x) ↔
    y ≠ q ∧ d (sortPair q y).1 (sortPair q y).2 ≤ c ∧ x = y := by
  constructor
  · intro h
    have hyq : q ≠ y := by
      intro hqy
      rw [if_pos ((sortPair_fst_eq_snd_iff q y).2 hqy)] at h
      exact Option.noConfusion h
    have h1 : ¬(sortPair q y).1 = (sortPair q y).2 :=
      fun hh => hyq ((sortPair_fst_eq_snd_iff q y).1 hh)
    rw [if_neg h1] at h
    by_cases h2 : d (sortPair q y).1 (sortPair q y).2 ≤ c
    · rw [if_pos h2, sortPair_other hyq] at h
      exact ⟨fun hy => hyq hy.symm, h2, (Option.some.inj h).symm⟩
    · rw [if_neg h2] at h
      exact Option.noConfusion h
  · rintro ⟨hyq, hle, hxy⟩
    have hne : ¬(sortPair q y).1 = (sortPair q y).2 := by
      rw [sortPair_fst_eq_snd_iff]
      exact fun h => hyq h.symm
    rw [if_neg hne, if_pos hle, sortPair_other (fun h => hyq h.symm), hxy]

/-- NEW_SET of the first-phase matrix: exactly the members distinct from the
query whose record distance to the query is within the loosest cutoff. -/
lemma mem_newSet_query {d : Nat → Nat → ℚ} {q : Nat} {c : ℚ} {l : List Nat}
    {x : Nat} :
    x ∈ newSetOf q c (generate_network d (queryPairs q l)) ↔
      x ∈ l ∧ x ≠ q ∧ d (sortPair q x).1 (sortPair q x).2 ≤ c := by
  rw [newSetOf_generate, List.mem_filterMap]
  constructor
  · rintro ⟨p, hp, hval⟩
    obtain ⟨y, hy, rfl⟩ := mem_queryPairs.1 hp
    obtain ⟨hyq, hle, rfl⟩ := (queryPair_scan d q c y x).1 hval
    exact ⟨hy, hyq, hle⟩
  · rintro ⟨hx, hxq, hle⟩
    exact ⟨sortPair q x, mem_queryPairs.2 ⟨x, hx, rfl⟩,
      (queryPair_scan d q c x x).2 ⟨hxq, hle, rfl⟩⟩

/-- A filterMap whose values determine their source produces no duplicate. -/
lemma nodup_filterMap_of_key {α β : Type _} (f : α → Option β) (key : β → α) :
    ∀ l : List α, l.Nodup → (∀ a ∈ l, ∀ b, f a = some b → a = key b) →
      (l.filterMap f).Nodup := by
  intro l
  induction l with
  | nil => intro _ _; simp
  | cons a t ih =>
    intro hnd hkey
    rw [List.filterMap_cons]
    cases hfa : f a with
    | none =>
      exact ih (List.nodup_cons.1 hnd).2
        (fun a' ha' => hkey a' (List.mem_cons_of_mem _ ha'))
    | some b =>
      rw [List.nodup_cons]
      refine ⟨fun hb => ?_, ih (List.nodup_cons.1 hnd).2
        (fun a' ha' => hkey a' (List.mem_cons_of_mem _ ha'))⟩
      rw [List.mem_filterMap] at hb
      obtain ⟨a', ha', hfa'⟩ := hb
      have h1 : a = key b := hkey a (List.mem_cons_self _ _) b hfa
      have h2 : a' = key b := hkey a' (List.mem_cons_of_mem _ ha') b hfa'
      exact (List.nodup_cons.1 hnd).1 ((h1.trans h2.symm) ▸ ha')

/-- NEW_SET holds no duplicate entry. -/
lemma newSet_query_nodup (d : Nat → Nat → ℚ) (q : Nat) (c : ℚ) (l : List Nat) :
    (newSetOf q c (generate_network d (queryPairs q l))).Nodup := by
  rw [newSetOf_generate]
  refine nodup_filterMap_of_key _ (fun x => sortPair q x) _ (queryPairs_nodup q l) ?_
  intro p hp x hval
  obtain ⟨y, _, rfl⟩ := mem_queryPairs.1 hp
  obtain ⟨_, _, rfl⟩ := (queryPair_scan d q c y x).1 hval
  rfl

/-! ### Correctness of the incremental component construction -/

/-- The undirected edge relation is symmetric. -/
lemma er_symm (E : List (Nat × Nat)) : Symmetric (Er E) :=
  fun _ _ h => h.elim Or.inr Or.inl

/-- Connectivity is symmetric. -/
lemma reach_symm {E : List (Nat × Nat)} {x y : Nat} (h : Reach E x y) :
    Reach E y x :=
  Relation.ReflTransGen.symmetric (er_symm E) h

/-- Invariant of the incremental construction: cells are mutually connected
in the ambient edge list, overlapping cells coincide, every processed edge
has both endpoints in one common cell, every covered node lies in some cell,
and cells hold nodes of the ambient universe only. -/
def CompState (E : List (Nat × Nat)) (Done : Nat → Nat → Prop)
    (Cov : Nat → Prop) (U : Nat → Prop) (comps : List (List Nat)) : Prop :=
  (∀ c ∈ comps, ∀ x ∈ c, ∀ y ∈ c, Reach E x y) ∧
  (∀ c ∈ comps, ∀ c' ∈ comps, ∀ x, x ∈ c → x ∈ c' → c = c') ∧
  (∀ a b, Done a b → ∃ c ∈ comps, a ∈ c ∧ b ∈ c) ∧
  (∀ x, Cov x → ∃ c ∈ comps, x ∈ c) ∧
  (∀ c ∈ comps, ∀ x ∈ c, U x)

/-- The invariant weakens along smaller processed and covered sets. -/
lemma compState_mono {E : List (Nat × Nat)} {Done Done' : Nat → Nat → Prop}
    {Cov Cov' : Nat → Prop} {U : Nat → Prop} {comps : List (List Nat)}
    (hD : ∀ a b, Done' a b → Done a b) (hC : ∀ x, Cov' x → Cov x)
    (h : CompState E Done Cov U comps) : CompState E Done' Cov' U comps := by
  obtain ⟨h1, h2, h3, h4, h5⟩ := h
  exact ⟨h1, h2, fun a b hab => h3 a b (hD a b hab),
    fun x hx => h4 x (hC x hx), h5⟩

/-- Adding a node preserves the invariant and covers the node. -/
lemma compState_addNode {E : List (Nat × Nat)} {Done : Nat → Nat → Prop}
    {Cov : Nat → Prop} {U : Nat → Prop} {comps : List (List Nat)} {v : Nat}
    (hU : U v) (h : CompState E Done Cov U comps) :
    CompState E Done (fun x => Cov x ∨ x = v) U (addNode comps v) := by
  obtain ⟨h1, h2, h3, h4, h5⟩ := h
  unfold addNode
  by_cases hv : comps.any (fun c => decide (v ∈ c)) = true
  · rw [if_pos hv]
    have hc : ∃ c ∈ comps, v ∈ c := by
      rw [List.any_eq_true] at hv
      obtain ⟨c, hc, hvc⟩ := hv
      exact ⟨c, hc, of_decide_eq_true hvc⟩
    refine ⟨h1, h2, h3, fun x hx => ?_, h5⟩
    rcases hx with hx | rfl
    · exact h4 x hx
    · exact hc
  · rw [if_neg hv]
    have hnv : ∀ c ∈ comps, v ∉ c := by
      intro c hc hvc
      exact hv (List.any_eq_true.2 ⟨c, hc, decide_eq_true hvc⟩)
    refine ⟨?_, ?_, ?_, ?_, ?_⟩
    · intro c hc x hx y hy
      rcases List.mem_cons.1 hc with rfl | hc'
      · rw [List.mem_singleton] at hx hy
        rw [hx, hy]
        exact Relation.ReflTransGen.refl
      · exact h1 c hc' x hx y hy
    · intro c hc c' hc' x hx hx'
      rcases List.mem_cons.1 hc with rfl | hc1
      · rcases List.mem_cons.1 hc' with rfl | hc2
        · rfl
        · rw [List.mem_singleton] at hx
          exact absurd (hx ▸ hx') (hnv c' hc2)
      · rcases List.mem_cons.1 hc' with rfl | hc2
        · rw [List.mem_singleton] at hx'
          exact absurd (hx' ▸ hx) (hnv c hc1)
        · exact h2 c hc1 c' hc2 x hx hx'
    · intro a b hab
      obtain ⟨c, hc, hmem⟩ := h3 a b hab
      exact ⟨c, List.mem_cons_of_mem _ hc, hmem⟩
    · intro x hx
      rcases hx with hx | rfl
      · obtain ⟨c, hc, hmem⟩ := h4 x hx
        exact ⟨c, List.mem_cons_of_mem _ hc, hmem⟩
      · exact ⟨[x], List.mem_cons_self _ _, List.mem_singleton.2 rfl⟩
    · intro c hc x hx
      rcases List.mem_cons.1 hc with rfl | hc'
      · rw [List.mem_singleton] at hx
        rw [hx]; exact hU
      · exact h5 c hc' x hx

/-- Merging on an existing edge preserves the invariant, records the edge as
processed and covers its endpoints. -/
lemma compState_mergeCells {E : List (Nat × Nat)} {Done : Nat → Nat → Prop}
    {Cov : Nat → Prop} {U : Nat → Prop} {comps : List (List Nat)} {a b : Nat}
    (hab : Er E a b) (hUa : U a) (hUb : U b) (h : CompState E Done Cov U comps) :
    CompState E (fun x y => Done x y ∨ (x = a ∧ y = b))
      (fun x => Cov x ∨ x = a ∨ x = b) U (mergeCells comps a b) := by
  have h0 := compState_addNode hUb (compState_addNode hUa h)
  obtain ⟨h1, h2, h3, h4, h5⟩ := h0
  obtain ⟨ca, hca, hva⟩ := h4 a (Or.inl (Or.inr rfl))
  obtain ⟨cb, hcb, hvb⟩ := h4 b (Or.inr rfl)
  have hrab : Reach E a b := Relation.ReflTransGen.single hab
  set comps1 := addNode (addNode comps a) b with hc1
  set P : List Nat → Bool := fun c => decide (a ∈ c) || decide (b ∈ c) with hP
  have hPdef : ∀ c, P c = true ↔ (a ∈ c ∨ b ∈ c) := by
    intro c
    rw [hP]
    simp
  have hsub : ∀ c ∈ comps1, P c = true → ∀ x ∈ c,
      x ∈ (comps1.filter P).flatten := by
    intro c hc hPc x hx
    rw [List.mem_flatten]
    exact ⟨c, List.mem_filter.2 ⟨hc, hPc⟩, hx⟩
  have hgoal : CompState E (fun x y => Done x y ∨ (x = a ∧ y = b))
      (fun x => Cov x ∨ x = a ∨ x = b) U
      (((comps1.filter P).flatten) :: comps1.filter (fun c => !P c)) := by
    refine ⟨?_, ?_, ?_, ?_, ?_⟩
    · intro c hc x hx y hy
      rcases List.mem_cons.1 hc with rfl | hc'
      · rw [List.mem_flatten] at hx hy
        obtain ⟨cx, hcx, hxcx⟩ := hx
        obtain ⟨cy, hcy, hycy⟩ := hy
        obtain ⟨hcx1, hcxP⟩ := List.mem_filter.1 hcx
        obtain ⟨hcy1, hcyP⟩ := List.mem_filter.1 hcy
        have hx2 : Reach E x a ∨ Reach E x b := by
          rcases (hPdef cx).1 hcxP with hacx | hbcx
          · exact Or.inl (h1 cx hcx1 x hxcx a hacx)
          · exact Or.inr (h1 cx hcx1 x hxcx b hbcx)
        have hy2 : Reach E a y ∨ Reach E b y := by
          rcases (hPdef cy).1 hcyP with hacy | hbcy
          · exact Or.inl (h1 cy hcy1 a hacy y hycy)
          · exact Or.inr (h1 cy hcy1 b hbcy y hycy)
        rcases hx2 with hx2 | hx2 <;> rcases hy2 with hy2 | hy2
        · exact hx2.trans hy2
        · exact (hx2.trans hrab).trans hy2
        · exact (hx2.trans (reach_symm hrab)).trans hy2
        · exact hx2.trans hy2
      · obtain ⟨hc1', _⟩ := List.mem_filter.1 hc'
        exact h1 c hc1' x hx y hy
    · intro c hc c' hc' x hx hx'
      rcases List.mem_cons.1 hc with rfl | hcr
      · rcases List.mem_cons.1 hc' with rfl | hcr'
        · rfl
        · obtain ⟨hcm, hcP⟩ := List.mem_filter.1 hcr'
          rw [List.mem_flatten] at hx
          obtain ⟨cx, hcx, hxcx⟩ := hx
          obtain ⟨hcx1, hcxP⟩ := List.mem_filter.1 hcx
          have : cx = c' := h2 cx hcx1 c' hcm x hxcx hx'
          rw [this] at hcxP
          rw [Bool.not_eq_true'] at hcP
          rw [hcP] at hcxP
          exact absurd hcxP (by simp)
      · rcases List.mem_cons.1 hc' with rfl | hcr'
        · obtain ⟨hcm, hcP⟩ := List.mem_filter.1 hcr
          rw [List.mem_flatten] at hx'
          obtain ⟨cx, hcx, hxcx⟩ := hx'
          obtain ⟨hcx1, hcxP⟩ := List.mem_filter.1 hcx
          have : cx = c := h2 cx hcx1 c hcm x hxcx hx
          rw [this] at hcxP
          rw [Bool.not_eq_true'] at hcP
          rw [hcP] at hcxP
          exact absurd hcxP (by simp)
        · obtain ⟨hcm, _⟩ := List.mem_filter.1 hcr
          obtain ⟨hcm', _⟩ := List.mem_filter.1 hcr'
          exact h2 c hcm c' hcm' x hx hx'
    · intro x y hxy
      rcases hxy with hxy | ⟨rfl, rfl⟩
      · obtain ⟨c, hc, hxc, hyc⟩ := h3 x y hxy
        by_cases hcP : P c = true
        · exact ⟨(comps1.filter P).flatten, List.mem_cons_self _ _,
            hsub c hc hcP x hxc, hsub c hc hcP y hyc⟩
        · exact ⟨c, List.mem_cons_of_mem _
            (List.mem_filter.2 ⟨hc, by simpa using hcP⟩), hxc, hyc⟩
      · refine ⟨(comps1.filter P).flatten, List.mem_cons_self _ _, ?_, ?_⟩
        · exact hsub ca hca ((hPdef ca).2 (Or.inl hva)) x hva
        · exact hsub cb hcb ((hPdef cb).2 (Or.inr hvb)) y hvb
    · intro x hx
      have hx' : (Cov x ∨ x = a) ∨ x = b := by tauto
      obtain ⟨c, hc, hxc⟩ := h4 x hx'
      by_cases hcP : P c = true
      · exact ⟨(comps1.filter P).flatten, List.mem_cons_self _ _, hsub c hc hcP x hxc⟩
      · exact ⟨c, List.mem_cons_of_mem _
          (List.mem_filter.2 ⟨hc, by simpa using hcP⟩), hxc⟩
    · intro c hc x hx
      rcases List.mem_cons.1 hc with rfl | hc'
      · rw [List.mem_flatten] at hx
        obtain ⟨cx, hcx, hxcx⟩ := hx
        obtain ⟨hcx1, _⟩ := List.mem_filter.1 hcx
        exact h5 cx hcx1 x hxcx
      · obtain ⟨hcm, _⟩ := List.mem_filter.1 hc'
        exact h5 c hcm x hx
  exact hgoal

/-- Folding addNode over a node list covers those nodes. -/
lemma compState_nodeFold {E : List (Nat × Nat)} {U : Nat → Prop} :
    ∀ (ns : List Nat) (Done : Nat → Nat → Prop) (Cov : Nat → Prop)
      (comps : List (List Nat)), (∀ v ∈ ns, U v) →
      CompState E Done Cov U comps →
      CompState E Done (fun x => Cov x ∨ x ∈ ns) U (ns.foldl addNode comps) := by
  intro ns
  induction ns with
  | nil =>
    intro Done Cov comps _ h
    exact compState_mono (fun _ _ hd => hd)
      (fun x hx => hx.elim id (fun hx' => absurd hx' (List.not_mem_nil x))) h
  | cons v ns ih =>
    intro Done Cov comps hU h
    have h1 := compState_addNode (hU v (List.mem_cons_self _ _)) h
    have h2 := ih Done (fun x => Cov x ∨ x = v) (addNode comps v)
      (fun w hw => hU w (List.mem_cons_of_mem _ hw)) h1
    refine compState_mono (fun _ _ hd => hd) (fun x hx => ?_) h2
    rcases hx with hx | hxv
    · exact Or.inl (Or.inl hx)
    · rcases List.mem_cons.1 hxv with rfl | hx'
      · exact Or.inl (Or.inr rfl)
      · exact Or.inr hx'

/-- Folding the merge step over an edge list joins those edges. -/
lemma compState_edgeFold {E : List (Nat × Nat)} {U : Nat → Prop} :
    ∀ (es : List (Nat × Nat)) (Done : Nat → Nat → Prop) (Cov : Nat → Prop)
      (comps : List (List Nat)),
      (∀ p ∈ es, Er E p.1 p.2) → (∀ p ∈ es, U p.1 ∧ U p.2) →
      CompState E Done Cov U comps →
      CompState E (fun x y => Done x y ∨ (x, y) ∈ es)
        (fun x => Cov x ∨ ∃ p ∈ es, x = p.1 ∨ x = p.2) U
        (es.foldl (fun comps e => mergeCells comps e.1 e.2) comps) := by
  intro es
  induction es with
  | nil =>
    intro Done Cov comps _ _ h
    refine compState_mono (fun a b hd => ?_) (fun x hx => ?_) h
    · rcases hd with hd | hd
      · exact hd
      · exact absurd hd (List.not_mem_nil _)
    · rcases hx with hx | ⟨p, hp, _⟩
      · exact hx
      · exact absurd hp (List.not_mem_nil p)
  | cons e es ih =>
    intro Done Cov comps hEr hU h
    have h1 := compState_mergeCells (hEr e (List.mem_cons_self _ _))
      (hU e (List.mem_cons_self _ _)).1 (hU e (List.mem_cons_self _ _)).2 h
    have h2 := ih (fun x y => Done x y ∨ (x = e.1 ∧ y = e.2))
      (fun x => Cov x ∨ x = e.1 ∨ x = e.2) (mergeCells comps e.1 e.2)
      (fun p hp => hEr p (List.mem_cons_of_mem _ hp))
      (fun p hp => hU p (List.mem_cons_of_mem _ hp)) h1
    refine compState_mono (fun a b hd => ?_) (fun x hx => ?_) h2
    · rcases hd with hd | hd
      · exact Or.inl (Or.inl hd)
      · rcases List.mem_cons.1 hd with heq | hd'
        · refine Or.inl (Or.inr ?_)
          have : a = e.1 ∧ b = e.2 := by
            constructor
            · exact congrArg Prod.fst heq
            · exact congrArg Prod.snd heq
          exact this
        · exact Or.inr hd'
    · rcases hx with hx | ⟨p, hp, hxp⟩
      · exact Or.inl (Or.inl hx)
      · rcases List.mem_cons.1 hp with rfl | hp'
        · rcases hxp with rfl | rfl
          · exact Or.inl (Or.inr (Or.inl rfl))
          · exact Or.inl (Or.inr (Or.inr rfl))
        · exact Or.inr ⟨p, hp', hxp⟩

/-- The fundamental facts about componentsList: cells are mutually connected,
overlapping cells coincide, every edge has both endpoints in one cell, every
given node lies in some cell, and cells hold only given nodes or edge
endpoints. -/
theorem componentsList_spec (nodes : List Nat) (edges : List (Nat × Nat)) :
    (∀ c ∈ componentsList nodes edges, ∀ x ∈ c, ∀ y ∈ c, Reach edges x y) ∧
    (∀ c ∈ componentsList nodes edges, ∀ c' ∈ componentsList nodes edges,
      ∀ x, x ∈ c → x ∈ c' → c = c') ∧
    (∀ p ∈ edges, ∃ c ∈ componentsList nodes edges, p.1 ∈ c ∧ p.2 ∈ c) ∧
    (∀ x ∈ nodes, ∃ c ∈ componentsList nodes edges, x ∈ c) ∧
    (∀ c ∈ componentsList nodes edges, ∀ x ∈ c,
      x ∈ nodes ∨ ∃ p ∈ edges, x = p.1 ∨ x = p.2) := by
  have hbase : CompState edges (fun _ _ => False) (fun _ => False)
      (fun x => x ∈ nodes ∨ ∃ p ∈ edges, x = p.1 ∨ x = p.2) [] := by
    refine ⟨?_, ?_, ?_, ?_, ?_⟩ <;> simp
  have hn := compState_nodeFold nodes (fun _ _ => False) (fun _ => False) []
    (fun v hv => Or.inl hv) hbase
  have he := compState_edgeFold edges (fun _ _ => False)
    (fun x => False ∨ x ∈ nodes) (nodes.foldl addNode [])
    (fun p hp => Or.inl hp)
    (fun p hp => ⟨Or.inr ⟨p, hp, Or.inl rfl⟩, Or.inr ⟨p, hp, Or.inr rfl⟩⟩) hn
  obtain ⟨h1, h2, h3, h4, h5⟩ := he
  refine ⟨h1, h2, fun p hp => ?_, fun x hx => h4 x (Or.inl (Or.inr hx)), h5⟩
  have := h3 p.1 p.2 (Or.inr (by simpa using hp))
  exact this

/-- Cells of componentsList are closed under connectivity. -/
lemma cell_closed {nodes : List Nat} {edges : List (Nat × Nat)} {c : List Nat}
    (hc : c ∈ componentsList nodes edges) {x y : Nat} (hx : x ∈ c)
    (h : Reach edges x y) : y ∈ c := by
  obtain ⟨_, h2, h3, _, _⟩ := componentsList_spec nodes edges
  induction h with
  | refl => exact hx
  | tail _ her ih =>
    rcases her with hbc | hbc
    · obtain ⟨c', hc', hb, hy⟩ := h3 _ hbc
      rw [h2 c hc c' hc' _ ih hb]
      exact hy
    · obtain ⟨c', hc', hy, hb⟩ := h3 _ hbc
      rw [h2 c hc c' hc' _ ih hb]
      exact hy

/-- A cell is exactly the connectivity class of any of its elements. -/
lemma mem_cell_iff {nodes : List Nat} {edges : List (Nat × Nat)} {c : List Nat}
    (hc : c ∈ componentsList nodes edges) {x : Nat} (hx : x ∈ c) (y : Nat) :
    y ∈ c ↔ Reach edges x y :=
  ⟨fun hy => (componentsList_spec nodes edges).1 c hc x hx y hy,
   fun h => cell_closed hc hx h⟩

/-- Membership in MIBIG_SET_DEL: the index is a member whose whole connected
component (at the loosest cutoff) consists of reference indices.  The
hypothesis pins every edge endpoint into the member list, which holds for
every matrix the driver builds for a class group. -/
lemma mem_mibigDel_iff {members mibig_set_indices : List Nat} {max_cutoff : ℚ}
    {matrix : List Row}
    (hend : ∀ p ∈ edgesOf max_cutoff matrix, p.1 ∈ members ∧ p.2 ∈ members)
    (x : Nat) :
    x ∈ mibigDel members mibig_set_indices max_cutoff matrix ↔
      x ∈ members ∧
        ∀ y, Reach (edgesOf max_cutoff matrix) x y → y ∈ mibig_set_indices := by
  unfold mibigDel
  rw [List.mem_flatten]
  obtain ⟨h1, _, _, h4, h5⟩ := componentsList_spec members (edgesOf max_cutoff matrix)
  constructor
  · rintro ⟨c, hcf, hxc⟩
    obtain ⟨hc, hall⟩ := List.mem_filter.1 hcf
    rw [List.all_eq_true] at hall
    have hx_mem : x ∈ members := by
      rcases h5 c hc x hxc with hx | ⟨p, hp, hx⟩
      · exact hx
      · rcases hx with rfl | rfl
        · exact (hend p hp).1
        · exact (hend p hp).2
    refine ⟨hx_mem, fun y hy => ?_⟩
    exact of_decide_eq_true (hall y (cell_closed hc hxc hy))
  · rintro ⟨hx, hreach⟩
    obtain ⟨c, hc, hxc⟩ := h4 x hx
    refine ⟨c, List.mem_filter.2 ⟨hc, ?_⟩, hxc⟩
    rw [List.all_eq_true]
    intro z hz
    exact decide_eq_true (hreach z (h1 c hc x hxc z hz))

/-- Membership in the edge list of a matrix. -/
lemma mem_edgesOf {c : ℚ} {matrix : List Row} {p : Nat × Nat} :
    p ∈ edgesOf c matrix ↔ ∃ r ∈ matrix, r.dist ≤ c ∧ p = (r.a, r.b) := by
  unfold edgesOf
  rw [List.mem_filterMap]
  constructor
  · rintro ⟨r, hr, hval⟩
    by_cases hd : r.dist ≤ c
    · rw [if_pos hd] at hval
      exact ⟨r, hr, hd, (Option.some.inj hval).symm⟩
    · rw [if_neg hd] at hval
      exact absurd hval (Option.noConfusion)
  · rintro ⟨r, hr, hd, rfl⟩
    exact ⟨r, hr, by rw [if_pos hd]⟩

/-- The matrix component of the MIBiG pruning, unfolded. -/
lemma mibigPrune_fst (members mibig_set_indices : List Nat) (max_cutoff : ℚ)
    (matrix : List Row) :
    (mibigPrune members mibig_set_indices max_cutoff matrix).1 =
      matrix.filter (fun r =>
        !(decide (r.dist ≤ max_cutoff) &&
          decide (r.a ∈ mibigDel members mibig_set_indices max_cutoff matrix) &&
          decide (r.b ∈ mibigDel members mibig_set_indices max_cutoff matrix))) :=
  rfl

/-- The member-list component of the MIBiG pruning, unfolded. -/
lemma mibigPrune_snd (members mibig_set_indices : List Nat) (max_cutoff : ℚ)
    (matrix : List Row) :
    (mibigPrune members mibig_set_indices max_cutoff matrix).2 =
      members.filter (fun v =>
        decide (v ∉ mibigDel members mibig_set_indices max_cutoff matrix)) :=
  rfl

/-- Edge endpoints lie in the member list when all row endpoints do. -/
lemma edges_end_of_rows_end {members : List Nat} {c : ℚ} {matrix : List Row}
    (hend : ∀ r ∈ matrix, r.a ∈ members ∧ r.b ∈ members) :
    ∀ p ∈ edgesOf c matrix, p.1 ∈ members ∧ p.2 ∈ members := by
  intro p hp
  obtain ⟨r, hr, _, rfl⟩ := mem_edgesOf.1 hp
  exact hend r hr

/-- Connectivity to a non-reference index survives the MIBiG pruning: no edge
on such a walk is internal to a marked component, hence none is deleted. -/
lemma reach_pruned {members mibig_set_indices : List Nat} {c : ℚ}
    {matrix : List Row}
    (hend : ∀ r ∈ matrix, r.a ∈ members ∧ r.b ∈ members)
    {x y₀ : Nat} (hy₀ : Reach (edgesOf c matrix) x y₀)
    (hnm : y₀ ∉ mibig_set_indices) :
    ∀ {z : Nat}, Reach (edgesOf c matrix) x z →
      Reach (edgesOf c (mibigPrune members mibig_set_indices c matrix).1) x z := by
  have hedge := @edges_end_of_rows_end members c matrix hend
  intro z hz
  induction hz with
  | refl => exact Relation.ReflTransGen.refl
  | @tail b w hxb her ih =>
    refine Relation.ReflTransGen.tail ih ?_
    rcases her with hbw | hwb
    · obtain ⟨r, hr, hd, hp⟩ := mem_edgesOf.1 hbw
      have hra : r.a = b := by injection hp with h1 h2; exact h1.symm
      have hnodel : r.a ∉ mibigDel members mibig_set_indices c matrix := by
        intro hdel
        have hcomp := ((mem_mibigDel_iff hedge r.a).1 hdel).2
        exact hnm (hcomp y₀ ((reach_symm (hra ▸ hxb)).trans hy₀))
      have hkeep : r ∈ (mibigPrune members mibig_set_indices c matrix).1 := by
        rw [mibigPrune_fst]
        refine List.mem_filter.2 ⟨hr, ?_⟩
        simp [hnodel]
      exact Or.inl (hp ▸ mem_edgesOf.2 ⟨r, hkeep, hd, rfl⟩)
    · obtain ⟨r, hr, hd, hp⟩ := mem_edgesOf.1 hwb
      have hrb : r.b = b := by injection hp with h1 h2; exact h2.symm
      have hnodel : r.b ∉ mibigDel members mibig_set_indices c matrix := by
        intro hdel
        have hcomp := ((mem_mibigDel_iff hedge r.b).1 hdel).2
        exact hnm (hcomp y₀ ((reach_symm (hrb ▸ hxb)).trans hy₀))
      have hkeep : r ∈ (mibigPrune members mibig_set_indices c matrix).1 := by
        rw [mibigPrune_fst]
        refine List.mem_filter.2 ⟨hr, ?_⟩
        simp [hnodel]
      exact Or.inr (hp ▸ mem_edgesOf.2 ⟨r, hkeep, hd, rfl⟩)

/-- C1: with the reference set in use and no query BGC designated, the driver
builds the graph on the class members whose edges are the matrix rows within
the loosest cutoff.  (i) the marked set MIBIG_SET_DEL is exactly the members
whose whole connected component consists of reference indices; (ii) a row
within the cutoff lying inside such a component is deleted from the matrix;
(iii) such members are removed from the member list; (iv) afterwards every
remaining member is connected, inside the pruned matrix at the loosest
cutoff, to a non-reference index; (v) hence every family subsequently
reported from the group (clusterJsonBatch is modelled from the spec, which
discards reference-only components at every cutoff) has at least one
non-reference member. -/
theorem claim_C1_reference_only_pruning
    (members mibig_set_indices : List Nat) (max_cutoff : ℚ) (matrix : List Row)
    (hend : ∀ r ∈ matrix, r.a ∈ members ∧ r.b ∈ members) :
    (∀ x, x ∈ mibigDel members mibig_set_indices max_cutoff matrix ↔
      x ∈ members ∧
        ∀ y, Reach (edgesOf max_cutoff matrix) x y → y ∈ mibig_set_indices) ∧
    (∀ r ∈ matrix, r.dist ≤ max_cutoff →
      (∀ y, Reach (edgesOf max_cutoff matrix) r.a y → y ∈ mibig_set_indices) →
      r ∉ (mibigPrune members mibig_set_indices max_cutoff matrix).1) ∧
    (∀ x ∈ members,
      (∀ y, Reach (edgesOf max_cutoff matrix) x y → y ∈ mibig_set_indices) →
      x ∉ (mibigPrune members mibig_set_indices max_cutoff matrix).2) ∧
    (∀ x ∈ (mibigPrune members mibig_set_indices max_cutoff matrix).2,
      ∃ y, Reach
        (edgesOf max_cutoff (mibigPrune members mibig_set_indices max_cutoff matrix).1)
        x y ∧ y ∉ mibig_set_indices) ∧
    (∀ (cutoff : ℚ) (fam : List Nat),
      fam ∈ reportedFamilies cutoff
        (mibigPrune members mibig_set_indices max_cutoff matrix).1
        (mibigPrune members mibig_set_indices max_cutoff matrix).2
        mibig_set_indices →
      ∃ y ∈ fam, y ∉ mibig_set_indices) := by
  have hedge := @edges_end_of_rows_end members max_cutoff matrix hend
  have hi := fun x =>
    @mem_mibigDel_iff members mibig_set_indices max_cutoff matrix hedge x
  refine ⟨hi, ?_, ?_, ?_, ?_⟩
  · intro r hr hd hreach
    have hra : r.a ∈ mibigDel members mibig_set_indices max_cutoff matrix :=
      (hi r.a).2 ⟨(hend r hr).1, hreach⟩
    have hab : Reach (edgesOf max_cutoff matrix) r.a r.b :=
      Relation.ReflTransGen.single (Or.inl (mem_edgesOf.2 ⟨r, hr, hd, rfl⟩))
    have hrb : r.b ∈ mibigDel members mibig_set_indices max_cutoff matrix :=
      (hi r.b).2 ⟨(hend r hr).2,
        fun y hy => hreach y (hab.trans hy)⟩
    intro hmem
    rw [mibigPrune_fst] at hmem
    have hkeep := (List.mem_filter.1 hmem).2
    simp [hd, hra, hrb] at hkeep
  · intro x hx hreach hmem
    rw [mibigPrune_snd] at hmem
    have hkeep := (List.mem_filter.1 hmem).2
    simp [(hi x).2 ⟨hx, hreach⟩] at hkeep
  · intro x hx
    have hx' := hx
    rw [mibigPrune_snd] at hx'
    obtain ⟨hxm, hnot⟩ := List.mem_filter.1 hx'
    have hnot' : x ∉ mibigDel members mibig_set_indices max_cutoff matrix :=
      of_decide_eq_true hnot
    have hne : ¬∀ y, Reach (edgesOf max_cutoff matrix) x y → y ∈ mibig_set_indices :=
      fun hall => hnot' ((hi x).2 ⟨hxm, hall⟩)
    push_neg at hne
    obtain ⟨y, hy, hnm⟩ := hne
    exact ⟨y, reach_pruned hend hy hnm hy, hnm⟩
  · intro cutoff fam hfam
    unfold reportedFamilies at hfam
    have hall := (List.mem_filter.1 hfam).2
    by_contra hcon
    push_neg at hcon
    have : fam.all (fun x => decide (x ∈ mibig_set_indices)) = true :=
      List.all_eq_true.2 (fun z hz => decide_eq_true (hcon z hz))
    rw [this] at hall
    exact absurd hall (by simp)

/-- C1 witness: members 0, 1, 2 with references 0 and 1; the rows join 0-1 at
distance 0 and 1-2 at distance 2 with loosest cutoff 1, so the component of 0
and 1 is reference-only: its internal row and its members are pruned, while
member 2 keeps a non-reference connection. -/
theorem claim_C1_reference_only_pruning_witness :
    ((⟨0, 1, 0⟩ : Row) ∉
      (mibigPrune [0, 1, 2] [0, 1] 1 [⟨0, 1, 0⟩, ⟨1, 2, 2⟩]).1) ∧
    (0 ∉ (mibigPrune [0, 1, 2] [0, 1] 1 [⟨0, 1, 0⟩, ⟨1, 2, 2⟩]).2) ∧
    (∃ y, Reach (edgesOf 1 (mibigPrune [0, 1, 2] [0, 1] 1
        [⟨0, 1, 0⟩, ⟨1, 2, 2⟩]).1) 2 y ∧ y ∉ [0, 1]) := by
  obtain ⟨hi, hii, hiii, hiv, hv⟩ :=
    claim_C1_reference_only_pruning [0, 1, 2] [0, 1] 1
      [⟨0, 1, 0⟩, ⟨1, 2, 2⟩] (by decide)
  refine ⟨?_, ?_, ?_⟩
  · exact hii ⟨0, 1, 0⟩ (by decide) (by decide) ((hi 0).1 (by decide)).2
  · exact hiii 0 (by decide) ((hi 0).1 (by decide)).2
  · exact hiv 2 (by decide)

/-! ### The query-mode pipeline, row level -/

/-- Row membership in a generated matrix, endpoint form. -/
lemma mem_generate_network_iff {d : Nat → Nat → ℚ} {ps : List (Nat × Nat)}
    {r : Row} :
    r ∈ generate_network d ps ↔ (r.a, r.b) ∈ ps ∧ r.dist = d r.a r.b := by
  unfold generate_network
  rw [List.mem_map]
  constructor
  · rintro ⟨p, hp, rfl⟩
    exact ⟨hp, rfl⟩
  · rintro ⟨hp, hd⟩
    refine ⟨(r.a, r.b), hp, ?_⟩
    cases r with
    | mk a b dist =>
      simp only at hd ⊢
      rw [hd]

/-- The final query-mode matrix, unfolded. -/
lemma queryExpansion_fst (d : Nat → Nat → ℚ) (q : Nat) (max_cutoff : ℚ)
    (members : List Nat) :
    (queryExpansion d q max_cutoff members).1 =
      removeAt (delListFrom max_cutoff 0
          (generate_network d (queryPairs q members))) 0
          (generate_network d (queryPairs q members)) ++
        generate_network d (allPairs (newSetOf q max_cutoff
          (generate_network d (queryPairs q members)))) :=
  rfl

/-- The final query-mode member list, unfolded. -/
lemma queryExpansion_snd (d : Nat → Nat → ℚ) (q : Nat) (max_cutoff : ℚ)
    (members : List Nat) :
    (queryExpansion d q max_cutoff members).2 =
      List.insertionSort (· ≤ ·)
        (newSetOf q max_cutoff (generate_network d (queryPairs q members)) ++ [q]) :=
  rfl

/-- The retained first-phase rows, as a filter of the first-phase matrix. -/
lemma queryExpansion_pruned (d : Nat → Nat → ℚ) (q : Nat) (max_cutoff : ℚ)
    (members : List Nat) :
    removeAt (delListFrom max_cutoff 0
        (generate_network d (queryPairs q members))) 0
        (generate_network d (queryPairs q members)) =
      (generate_network d (queryPairs q members)).filter
        (fun r => decide (r.a = r.b) || decide (r.dist ≤ max_cutoff)) :=
  removeAt_delListFrom max_cutoff _ 0

/-- C3: in query mode the per-group construction is exactly two-phase.  The
scan selects precisely the members other than the query whose record distance
to the query is within the loosest cutoff (i); the final matrix consists of
exactly the retained first-phase (query, other) records and the second-phase
records of all pairwise combinations inside the selected set (ii); and the
final member list is ascending (iii) with exactly the selected set plus the
query as entries (iv). -/
theorem claim_C3_two_phase_query_expansion (d : Nat → Nat → ℚ) (q : Nat)
    (max_cutoff : ℚ) (members : List Nat) :
    (∀ x, x ∈ newSetOf q max_cutoff (generate_network d (queryPairs q members)) ↔
      x ∈ members ∧ x ≠ q ∧
        d (sortPair q x).1 (sortPair q x).2 ≤ max_cutoff) ∧
    (∀ r, r ∈ (queryExpansion d q max_cutoff members).1 ↔
      (((∃ y ∈ members, (r.a, r.b) = sortPair q y) ∧ r.dist = d r.a r.b) ∧
        (r.a = r.b ∨ r.dist ≤ max_cutoff)) ∨
      ((∃ u v,
          u ∈ newSetOf q max_cutoff (generate_network d (queryPairs q members)) ∧
          v ∈ newSetOf q max_cutoff (generate_network d (queryPairs q members)) ∧
          u ≠ v ∧ (r.a, r.b) = sortPair u v) ∧ r.dist = d r.a r.b)) ∧
    List.Sorted (· ≤ ·) (queryExpansion d q max_cutoff members).2 ∧
    (∀ x, x ∈ (queryExpansion d q max_cutoff members).2 ↔
      x ∈ newSetOf q max_cutoff (generate_network d (queryPairs q members)) ∨
        x = q) := by
  refine ⟨fun x => mem_newSet_query, ?_, ?_, ?_⟩
  · intro r
    rw [queryExpansion_fst, List.mem_append, queryExpansion_pruned,
      List.mem_filter, mem_generate_network_iff, mem_generate_network_iff]
    constructor
    · rintro (⟨⟨hp, hd⟩, hkeep⟩ | ⟨hp, hd⟩)
      · obtain ⟨y, hy, hpy⟩ := mem_queryPairs.1 hp
        refine Or.inl ⟨⟨⟨y, hy, hpy⟩, hd⟩, ?_⟩
        rcases Bool.or_eq_true_iff.1 hkeep with h | h
        · exact Or.inl (of_decide_eq_true h)
        · exact Or.inr (of_decide_eq_true h)
      · refine Or.inr ⟨?_, hd⟩
        exact (mem_allPairs_iff (newSet_query_nodup d q max_cutoff members)).1 hp
    · rintro (⟨⟨⟨y, hy, hpy⟩, hd⟩, hkeep⟩ | ⟨⟨u, v, hu, hv, huv, hpy⟩, hd⟩)
      · refine Or.inl ⟨⟨mem_queryPairs.2 ⟨y, hy, hpy⟩, hd⟩, ?_⟩
        rcases hkeep with h | h
        · exact Bool.or_eq_true_iff.2 (Or.inl (decide_eq_true h))
        · exact Bool.or_eq_true_iff.2 (Or.inr (decide_eq_true h))
      · refine Or.inr ⟨?_, hd⟩
        exact (mem_allPairs_iff (newSet_query_nodup d q max_cutoff members)).2
          ⟨u, v, hu, hv, huv, hpy⟩
  · rw [queryExpansion_snd]
    exact List.sorted_insertionSort _ _
  · intro x
    rw [queryExpansion_snd,
      (List.perm_insertionSort (· ≤ ·) _).mem_iff, List.mem_append,
      List.mem_singleton]

/-! ### Claim C2: cutoff-agnosticism of the matrix handed to the output -/

/-- C2 counterexample: in query mode with loosest cutoff 1, the requested
candidate pair (0, 1) receives distance 2, and the final matrix no longer
contains its record - the scan deleted it before output writing and family
clustering, contradicting the claim that this holds in every mode. -/
theorem claim_C2_counterexample :
    ((0, 1) ∈ queryPairs 0 [0, 1]) ∧
    (queryExpansion (fun a b => if a = 0 ∧ b = 1 then 2 else 0) 0 1 [0, 1]).1 =
      [⟨0, 0, 0⟩] := by
  decide

/-- C2 amended: in the all-versus-all modes every requested pair's record
stays in the matrix regardless of its distance - in particular the MIBiG
pruning only ever deletes rows within the loosest cutoff (i); in query mode,
however, a first-phase record with distinct endpoints and distance above the
loosest cutoff is deleted before the output stages (ii). -/
theorem claim_C2_cutoff_agnostic_amended (d : Nat → Nat → ℚ) (q : Nat)
    (max_cutoff : ℚ) (members mibig_set_indices : List Nat) :
    (∀ r ∈ generate_network d (allPairs members), ¬r.dist ≤ max_cutoff →
      r ∈ (mibigPrune members mibig_set_indices max_cutoff
        (generate_network d (allPairs members))).1) ∧
    (∀ r ∈ generate_network d (queryPairs q members), r.a ≠ r.b →
      ¬r.dist ≤ max_cutoff → r ∉ (queryExpansion d q max_cutoff members).1) := by
  constructor
  · intro r hr hd
    rw [mibigPrune_fst]
    refine List.mem_filter.2 ⟨hr, ?_⟩
    simp [hd]
  · intro r hr hab hd
    rw [queryExpansion_fst, List.mem_append, queryExpansion_pruned]
    rintro (hmem | hmem)
    · have hkeep := (List.mem_filter.1 hmem).2
      rcases Bool.or_eq_true_iff.1 hkeep with h | h
      · exact hab (of_decide_eq_true h)
      · exact hd (of_decide_eq_true h)
    · obtain ⟨hp, _⟩ := mem_generate_network_iff.1 hmem
      obtain ⟨ha, hb, _⟩ := mem_allPairs_endpoints hp
      obtain ⟨hpq, _⟩ := mem_generate_network_iff.1 hr
      rcases queryPairs_has_q hpq with hq | hq
      · exact newSetOf_ne_q ha hq
      · exact newSetOf_ne_q hb hq

/-- C2 witness: with members 0 and 1, reference index 0, loosest cutoff 1 and
record distance 2, the all-versus-all record survives the MIBiG pruning while
the query-mode first-phase record is deleted. -/
theorem claim_C2_cutoff_agnostic_witness :
    ((⟨0, 1, 2⟩ : Row) ∈ (mibigPrune [0, 1] [0] 1
      (generate_network (fun _ _ => (2 : ℚ)) (allPairs [0, 1]))).1) ∧
    ((⟨0, 1, 2⟩ : Row) ∉
      (queryExpansion (fun _ _ => (2 : ℚ)) 0 1 [0, 1]).1) := by
  obtain ⟨h1, h2⟩ :=
    claim_C2_cutoff_agnostic_amended (fun _ _ => (2 : ℚ)) 0 1 [0, 1] [0]
  exact ⟨h1 ⟨0, 1, 2⟩ (by decide) (by decide),
    h2 ⟨0, 1, 2⟩ (by decide) (by decide) (by decide)⟩

/-! ### Claim C4: exclusion of self-pairs -/

/-- C4 counterexample: in query mode the first-phase pair set contains the
(query, query) tuple, the scan skips its row without deleting it, and the
final matrix therefore carries a record with equal endpoint indices. -/
theorem claim_C4_counterexample :
    (⟨0, 0, 0⟩ : Row) ∈ (queryExpansion (fun _ _ => (0 : ℚ)) 0 1 [0, 1]).1 := by
  decide

/-- C4 amended: in the all-versus-all modes no record has equal endpoints
(for the duplicate-free member lists the driver builds), before (i) and
after (ii) MIBiG pruning; in query mode the only record with equal endpoints
the final matrix can hold is the (query, query) record, which is retained
(iii). -/
theorem claim_C4_no_self_pairs_amended (d : Nat → Nat → ℚ) (q : Nat)
    (max_cutoff : ℚ) (members mibig_set_indices : List Nat)
    (hnd : members.Nodup) :
    (∀ r ∈ generate_network d (allPairs members), r.a ≠ r.b) ∧
    (∀ r ∈ (mibigPrune members mibig_set_indices max_cutoff
        (generate_network d (allPairs members))).1, r.a ≠ r.b) ∧
    (∀ r ∈ (queryExpansion d q max_cutoff members).1,
      r.a = r.b → r.a = q ∧ r.b = q) := by
  have hgen : ∀ r ∈ generate_network d (allPairs members), r.a ≠ r.b := by
    intro r hr
    obtain ⟨hp, _⟩ := mem_generate_network_iff.1 hr
    obtain ⟨a, b, _, _, hab, hpe⟩ := (mem_allPairs_iff hnd).1 hp
    intro hre
    rw [show r.a = (r.a, r.b).1 from rfl, show r.b = (r.a, r.b).2 from rfl,
      hpe] at hre
    exact hab ((sortPair_fst_eq_snd_iff a b).1 hre)
  refine ⟨hgen, ?_, ?_⟩
  · intro r hr
    rw [mibigPrune_fst] at hr
    exact hgen r (List.mem_filter.1 hr).1
  · intro r hr hre
    rw [queryExpansion_fst, List.mem_append, queryExpansion_pruned] at hr
    rcases hr with hr | hr
    · obtain ⟨hm, _⟩ := List.mem_filter.1 hr
      obtain ⟨hp, _⟩ := mem_generate_network_iff.1 hm
      obtain ⟨y, _, hpe⟩ := mem_queryPairs.1 hp
      have hqy : q = y := by
        apply (sortPair_fst_eq_snd_iff q y).1
        rw [← hpe]
        exact hre
      rw [← hqy] at hpe
      have ha : r.a = q := by
        have := congrArg Prod.fst hpe
        simpa [sortPair] using this
      exact ⟨ha, hre ▸ ha⟩
    · obtain ⟨hp, _⟩ := mem_generate_network_iff.1 hr
      obtain ⟨a, b, ha, hb, hab, hpe⟩ :=
        (mem_allPairs_iff (newSet_query_nodup d q max_cutoff members)).1 hp
      exact absurd (by
        rw [show r.a = (r.a, r.b).1 from rfl, show r.b = (r.a, r.b).2 from rfl,
          hpe] at hre
        exact (sortPair_fst_eq_snd_iff a b).1 hre) hab

/-- C4 witness: the amended statement evaluated on members 0, 1, 2. -/
theorem claim_C4_no_self_pairs_witness :
    ([0, 1, 2] : List Nat).Nodup ∧
    (∀ r ∈ generate_network (fun _ _ => (0 : ℚ)) (allPairs [0, 1, 2]),
      r.a ≠ r.b) ∧
    (∀ r ∈ (queryExpansion (fun _ _ => (0 : ℚ)) 0 1 [0, 1, 2]).1,
      r.a = r.b → r.a = 0 ∧ r.b = 0) := by
  have h := claim_C4_no_self_pairs_amended (fun _ _ => (0 : ℚ)) 0 1 [0, 1, 2]
    [0] (by decide)
  exact ⟨by decide, h.1, h.2.2⟩

/-! ### Claim C5: at most one record per unordered pair -/

/-- Rows generated from a duplicate-free list of normalised pairs record
pairwise distinct unordered pairs. -/
lemma generate_network_pairwise {d : Nat → Nat → ℚ} {ps : List (Nat × Nat)}
    (hnd : ps.Nodup) (hnorm : ∀ p ∈ ps, p.1 ≤ p.2) :
    (generate_network d ps).Pairwise (fun r s => ¬samePair r s) := by
  unfold generate_network
  rw [List.pairwise_map]
  refine List.Pairwise.imp_of_mem ?_ hnd
  intro p p' hp hp' hne hsame
  rcases hsame with ⟨h1, h2⟩ | ⟨h1, h2⟩
  · simp only at h1 h2
    exact hne (Prod.ext h1 h2)
  · simp only at h1 h2
    have hle := hnorm p hp
    have hle' := hnorm p' hp'
    rw [h1, h2] at hle
    have : p'.1 = p'.2 := Nat.le_antisymm hle' hle
    apply hne
    apply Prod.ext
    · rw [h1, ← this]
    · rw [h2, this]

/-- C5: the final matrix records at most one row per unordered pair of
indices, in the all-versus-all mode before (i) and after (ii) MIBiG pruning
and in query mode (iii), where the second-phase rows (combinations inside
the expansion set, which never holds the query) cannot duplicate a retained
first-phase row (whose endpoints include the query). -/
theorem claim_C5_one_record_per_pair (d : Nat → Nat → ℚ) (q : Nat)
    (max_cutoff : ℚ) (members mibig_set_indices : List Nat) :
    (generate_network d (allPairs members)).Pairwise (fun r s => ¬samePair r s) ∧
    ((mibigPrune members mibig_set_indices max_cutoff
      (generate_network d (allPairs members))).1.Pairwise
        (fun r s => ¬samePair r s)) ∧
    (queryExpansion d q max_cutoff members).1.Pairwise
      (fun r s => ¬samePair r s) := by
  have hall : (generate_network d (allPairs members)).Pairwise
      (fun r s => ¬samePair r s) :=
    generate_network_pairwise (allPairs_nodup members)
      (fun p hp => (mem_allPairs_endpoints hp).2.2)
  refine ⟨hall, ?_, ?_⟩
  · rw [mibigPrune_fst]
    exact List.Pairwise.sublist (List.filter_sublist _) hall
  · rw [queryExpansion_fst, queryExpansion_pruned]
    rw [List.pairwise_append]
    have hm1 : (generate_network d (queryPairs q members)).Pairwise
        (fun r s => ¬samePair r s) := by
      refine generate_network_pairwise (queryPairs_nodup q members) ?_
      intro p hp
      obtain ⟨y, _, rfl⟩ := mem_queryPairs.1 hp
      exact sortPair_le q y
    refine ⟨List.Pairwise.sublist (List.filter_sublist _) hm1, ?_, ?_⟩
    · refine generate_network_pairwise
        (allPairs_nodup _) (fun p hp => (mem_allPairs_endpoints hp).2.2)
    · intro r hr s hs hsame
      have hrq : r.a = q ∨ r.b = q := by
        obtain ⟨hp, _⟩ := mem_generate_network_iff.1
          ((List.filter_sublist _).subset hr)
        exact queryPairs_has_q hp
      obtain ⟨hps, _⟩ := mem_generate_network_iff.1 hs
      obtain ⟨hsa, hsb, _⟩ := mem_allPairs_endpoints hps
      have hsaq : s.a ≠ q := newSetOf_ne_q hsa
      have hsbq : s.b ≠ q := newSetOf_ne_q hsb
      rcases hsame with ⟨h1, h2⟩ | ⟨h1, h2⟩ <;> rcases hrq with hq | hq
      · exact hsaq (h1 ▸ hq)
      · exact hsbq (h2 ▸ hq)
      · exact hsbq (h1 ▸ hq)
      · exact hsaq (h2 ▸ hq)

/-! ### Claim C7: silent skip of degenerate class groups -/

/-- C7: a class group whose member list holds fewer than two entries after
pruning/expansion produces no output at all - no network files, no families,
no clans for any cutoff - by a silent continue rather than an error (i); in
query mode, when no other member lies within the loosest cutoff of the
query, the final member list is exactly the query alone and the group is
skipped this way (ii). -/
theorem claim_C7_degenerate_group_skipped (d : Nat → Nat → ℚ) (q : Nat)
    (max_cutoff : ℚ) (members : List Nat) :
    ((queryExpansion d q max_cutoff members).2.length < 2 →
      perClassQuery d q max_cutoff members = none) ∧
    ((∀ x ∈ members, x = q ∨
        ¬d (sortPair q x).1 (sortPair q x).2 ≤ max_cutoff) →
      (queryExpansion d q max_cutoff members).2 = [q] ∧
        perClassQuery d q max_cutoff members = none) := by
  have hskip : (queryExpansion d q max_cutoff members).2.length < 2 →
      perClassQuery d q max_cutoff members = none := by
    intro hlen
    unfold perClassQuery classStageOutput
    rw [if_pos hlen]
  refine ⟨hskip, fun hfar => ?_⟩
  have hns : newSetOf q max_cutoff (generate_network d (queryPairs q members)) = [] := by
    rw [List.eq_nil_iff_forall_not_mem]
    intro x hx
    obtain ⟨hxm, hxq, hxd⟩ := mem_newSet_query.1 hx
    rcases hfar x hxm with h | h
    · exact hxq h
    · exact h hxd
  have hmem : (queryExpansion d q max_cutoff members).2 = [q] := by
    rw [queryExpansion_snd, hns]
    rfl
  refine ⟨hmem, hskip ?_⟩
  rw [hmem]
  simp

/-- C7 witness: query 0 against member 1 at distance 2 with loosest cutoff 1:
the expansion leaves only the query and the group is silently skipped. -/
theorem claim_C7_degenerate_group_witness :
    (queryExpansion (fun _ _ => (2 : ℚ)) 0 1 [0, 1]).2 = [0] ∧
    perClassQuery (fun _ _ => (2 : ℚ)) 0 1 [0, 1] = none := by
  exact (claim_C7_degenerate_group_skipped (fun _ _ => (2 : ℚ)) 0 1 [0, 1]).2
    (by decide)

/-! ### Claim C6: family member remapping -/

/-- The member loop, run from arbitrary accumulators: the new members are the
input-space positions of the members found in input_clusters_idx, and the
mibig names are the names of the remaining members that are reference
names. -/
lemma familyFold_spec (input_clusters_idx : List Nat)
    (cluster_names mibig_set : List String) :
    ∀ (members : List Nat) (acc : List Nat × List String),
      members.foldl (familyLoopStep input_clusters_idx cluster_names mibig_set) acc =
        (acc.1 ++ (members.filter (fun i => decide (i ∈ input_clusters_idx))).map
            (fun i => input_clusters_idx.indexOf i),
         acc.2 ++ (members.filter (fun i =>
              decide (i ∉ input_clusters_idx) &&
              decide (cluster_names.getD i "" ∈ mibig_set))).map
            (fun i => cluster_names.getD i "")) := by
  intro members
  induction members with
  | nil => intro acc; simp
  | cons i t ih =>
    intro acc
    rw [List.foldl_cons]
    by_cases h1 : i ∈ input_clusters_idx
    · have hstep : familyLoopStep input_clusters_idx cluster_names mibig_set acc i =
          (acc.1 ++ [input_clusters_idx.indexOf i], acc.2) := by
        unfold familyLoopStep
        rw [if_pos h1]
      rw [hstep, ih]
      rw [List.filter_cons_of_pos (by simp only [decide_eq_true_eq]; exact h1),
        List.filter_cons_of_neg (by
          simp only [Bool.and_eq_true, decide_eq_true_eq]
          exact fun h => h.1 h1)]
      simp [List.append_assoc]
    · by_cases h2 : cluster_names.getD i "" ∈ mibig_set
      · have hstep : familyLoopStep input_clusters_idx cluster_names mibig_set acc i =
            (acc.1, acc.2 ++ [cluster_names.getD i ""]) := by
          unfold familyLoopStep
          rw [if_neg h1]
          simp only
          rw [if_pos h2]
        rw [hstep, ih]
        rw [List.filter_cons_of_neg (by simp only [decide_eq_true_eq]; exact h1),
          List.filter_cons_of_pos (by
            simp only [Bool.and_eq_true, decide_eq_true_eq]
            exact ⟨h1, h2⟩)]
        simp [List.append_assoc]
      · have hstep : familyLoopStep input_clusters_idx cluster_names mibig_set acc i =
            acc := by
          unfold familyLoopStep
          rw [if_neg h1]
          simp only
          rw [if_neg h2]
        rw [hstep, ih]
        rw [List.filter_cons_of_neg (by simp only [decide_eq_true_eq]; exact h1),
          List.filter_cons_of_neg (by
            simp only [Bool.and_eq_true, decide_eq_true_eq]
            exact fun h => h2 h.2)]

/-- The per-family update, in closed form. -/
lemma updateFamilyRecord_spec (input_clusters_idx : List Nat)
    (cluster_names mibig_set : List String) (f : Family) :
    updateFamilyRecord input_clusters_idx cluster_names mibig_set f =
      { members := (f.members.filter (fun i =>
            decide (i ∈ input_clusters_idx))).map
            (fun i => input_clusters_idx.indexOf i),
        mibig := (f.members.filter (fun i =>
            decide (i ∉ input_clusters_idx) &&
            decide (cluster_names.getD i "" ∈ mibig_set))).map
            (fun i => cluster_names.getD i "") } := by
  unfold updateFamilyRecord
  rw [familyFold_spec]
  simp

/-- Membership in INPUT_CLUSTERS_IDX. -/
lemma mem_inputClustersIdx {cluster_names mibig_set : List String} {i : Nat} :
    i ∈ inputClustersIdx cluster_names mibig_set ↔
      i < cluster_names.length ∧ cluster_names.getD i "" ∉ mibig_set := by
  unfold inputClustersIdx
  rw [List.mem_filter, List.mem_range]
  simp

/-- C6: after the remapping step the family's member list holds exactly the
positions, inside the input-only index list, of its members that are
non-reference clusters (i), so it holds input-only-space indices only (ii);
the reference members have been moved out into the mibig name list (iii);
and membership in the input-only list is exactly being a non-reference
cluster, so no member is represented in both lists (iv). -/
theorem claim_C6_family_remap (cluster_names mibig_set : List String)
    (f : Family) (hlt : ∀ i ∈ f.members, i < cluster_names.length) :
    ((updateFamilyRecord (inputClustersIdx cluster_names mibig_set)
        cluster_names mibig_set f).members =
      (f.members.filter (fun i =>
          decide (i ∈ inputClustersIdx cluster_names mibig_set))).map
        (fun i => (inputClustersIdx cluster_names mibig_set).indexOf i)) ∧
    (∀ x ∈ (updateFamilyRecord (inputClustersIdx cluster_names mibig_set)
        cluster_names mibig_set f).members,
      ∃ i ∈ f.members, i ∈ inputClustersIdx cluster_names mibig_set ∧
        x = (inputClustersIdx cluster_names mibig_set).indexOf i) ∧
    ((updateFamilyRecord (inputClustersIdx cluster_names mibig_set)
        cluster_names mibig_set f).mibig =
      (f.members.filter (fun i =>
          decide (i ∉ inputClustersIdx cluster_names mibig_set))).map
        (fun i => cluster_names.getD i "")) ∧
    (∀ i ∈ f.members,
      (i ∈ inputClustersIdx cluster_names mibig_set ↔
        cluster_names.getD i "" ∉ mibig_set)) := by
  have hbridge : ∀ i ∈ f.members,
      (i ∈ inputClustersIdx cluster_names mibig_set ↔
        cluster_names.getD i "" ∉ mibig_set) := by
    intro i hi
    rw [mem_inputClustersIdx]
    exact ⟨fun h => h.2, fun h => ⟨hlt i hi, h⟩⟩
  have hspec := updateFamilyRecord_spec
    (inputClustersIdx cluster_names mibig_set) cluster_names mibig_set f
  have hmembers := congrArg Family.members hspec
  have hmibig := congrArg Family.mibig hspec
  refine ⟨hmembers, ?_, ?_, hbridge⟩
  · intro x hx
    rw [hmembers, List.mem_map] at hx
    obtain ⟨i, hi, rfl⟩ := hx
    obtain ⟨him, hiin⟩ := List.mem_filter.1 hi
    exact ⟨i, him, of_decide_eq_true hiin, rfl⟩
  · rw [hmibig]
    have hfeq : f.members.filter (fun i =>
        decide (i ∉ inputClustersIdx cluster_names mibig_set) &&
        decide (cluster_names.getD i "" ∈ mibig_set)) =
      f.members.filter (fun i =>
        decide (i ∉ inputClustersIdx cluster_names mibig_set)) := by
      apply List.filter_congr
      intro i hi
      by_cases h1 : i ∈ inputClustersIdx cluster_names mibig_set
      · have hb : decide (i ∉ inputClustersIdx cluster_names mibig_set) = false :=
          decide_eq_false (not_not_intro h1)
        rw [hb]
        simp
      · have h2 : cluster_names.getD i "" ∈ mibig_set := by
          by_contra h3
          exact h1 ((hbridge i hi).2 h3)
        rw [decide_eq_true (show i ∉ inputClustersIdx cluster_names mibig_set from h1),
          decide_eq_true h2]
        simp
    rw [hfeq]

/-- C6 witness: cluster names BGC1 (a reference) and IN1 (an input) with one
family holding both global indices: the update keeps the input position and
moves the reference name out. -/
theorem claim_C6_family_remap_witness :
    ((updateFamilyRecord (inputClustersIdx ["BGC1", "IN1"] ["BGC1"])
        ["BGC1", "IN1"] ["BGC1"] ⟨[0, 1], []⟩).members = [0]) ∧
    ((updateFamilyRecord (inputClustersIdx ["BGC1", "IN1"] ["BGC1"])
        ["BGC1", "IN1"] ["BGC1"] ⟨[0, 1], []⟩).mibig = ["BGC1"]) := by
  obtain ⟨h1, _, h3, _⟩ :=
    claim_C6_family_remap ["BGC1", "IN1"] ["BGC1"] ⟨[0, 1], []⟩ (by decide)
  exact ⟨h1.trans (by decide), h3.trans (by decide)⟩

/-! ### Claim C10: update_family_data refines the inline loop -/

/-- C10: the util.py function update_family_data and the inline family-update
loop at the end of bigscape.py compute the same family records on every
input. -/
theorem claim_C10_update_family_data_refines_inline
    (rundata_networks_per_run : List (List NetworkData))
    (input_clusters_idx : List Nat) (cluster_names : List String)
    (mibig_set : List String) :
    update_family_data rundata_networks_per_run input_clusters_idx
        cluster_names mibig_set =
      inlineFamilyDataUpdate rundata_networks_per_run input_clusters_idx
        cluster_names mibig_set :=
  rfl

/-! ### Claim C8: the GenBank import aborts on excluded files -/

/-- A file whose result fails to unpack aborts the whole loop. -/
lemma get_gbk_files_loop_err (run_valid_classes : List String)
    (sort_bgc : String → String) (min_bgc_size : Nat) (save_fasta : Bool)
    (include_gbk exclude_gbk : List String) :
    ∀ (files : List GbkFile) (acc : List String × List String),
      (∃ f ∈ files, passesFilters include_gbk exclude_gbk f.name = true ∧
        (process_gbk_filef run_valid_classes sort_bgc min_bgc_size save_fasta f =
            GbkResult.retNone ∨
         process_gbk_filef run_valid_classes sort_bgc min_bgc_size save_fasta f =
            GbkResult.retFalse)) →
      ∃ msg, get_gbk_files_loop run_valid_classes sort_bgc min_bgc_size
        save_fasta include_gbk exclude_gbk files acc = Except.error msg := by
  intro files
  induction files with
  | nil =>
    rintro acc ⟨f, hf, _⟩
    exact absurd hf (List.not_mem_nil f)
  | cons g fs ih =>
    rintro acc ⟨f, hf, hpass, hbad⟩
    simp only [get_gbk_files_loop]
    by_cases hpg : passesFilters include_gbk exclude_gbk g.name = true
    · rw [if_pos hpg]
      cases hproc : process_gbk_filef run_valid_classes sort_bgc min_bgc_size
          save_fasta g with
      | retNone =>
        exact ⟨"TypeError: cannot unpack non-iterable NoneType object", rfl⟩
      | retFalse =>
        exact ⟨"TypeError: cannot unpack non-iterable bool object", rfl⟩
      | retTriple s bi gd =>
        simp only [unpack3]
        rcases List.mem_cons.1 hf with rfl | hf'
        · rw [hproc] at hbad
          rcases hbad with hbad | hbad <;> exact absurd hbad (by simp)
        · exact ih _ ⟨f, hf', hpass, hbad⟩
    · rw [if_neg hpg]
      rcases List.mem_cons.1 hf with rfl | hf'
      · exact absurd hpass hpg
      · exact ih _ ⟨f, hf', hpass, hbad⟩

/-- C8: a GenBank file whose Biopython parse raises ValueError makes
process_gbk_file return None (i), and a file above the minimum size whose
predicted classes meet none of the run's valid classes makes it return False
(ii); in either case, once such a file reaches the loop of get_gbk_files,
its unconditional three-way unpack raises TypeError and the import aborts
(iii) - the file is not merely excluded as the logged warning claims. -/
theorem claim_C8_gbk_import_aborts (run_valid_classes : List String)
    (sort_bgc : String → String) (min_bgc_size : Nat) (save_fasta : Bool)
    (include_gbk exclude_gbk : List String) (files : List GbkFile) :
    (∀ (f : GbkFile) (e : String), f.parse = Except.error e →
      process_gbk_filef run_valid_classes sort_bgc min_bgc_size save_fasta f =
        GbkResult.retNone) ∧
    (∀ (f : GbkFile) (records : List GbkRecord), f.parse = Except.ok records →
      (records.map (fun r => r.seqLen)).sum > min_bgc_size →
      run_valid_classes.all (fun v => decide (v ∉ subproductSet sort_bgc
        (productAtoms ((records.map (fun r => r.products)).flatten)))) = true →
      process_gbk_filef run_valid_classes sort_bgc min_bgc_size save_fasta f =
        GbkResult.retFalse) ∧
    (∀ f ∈ files, passesFilters include_gbk exclude_gbk f.name = true →
      (process_gbk_filef run_valid_classes sort_bgc min_bgc_size save_fasta f =
          GbkResult.retNone ∨
       process_gbk_filef run_valid_classes sort_bgc min_bgc_size save_fasta f =
          GbkResult.retFalse) →
      ∃ msg, get_gbk_files run_valid_classes sort_bgc min_bgc_size save_fasta
        include_gbk exclude_gbk files = Except.error msg) := by
  refine ⟨?_, ?_, ?_⟩
  · intro f e hparse
    unfold process_gbk_filef
    rw [hparse]
  · intro f records hparse hsize hclass
    unfold process_gbk_filef
    rw [hparse]
    simp only
    rw [if_pos hsize, if_pos hclass]
  · intro f hf hpass hbad
    exact get_gbk_files_loop_err run_valid_classes sort_bgc min_bgc_size
      save_fasta include_gbk exclude_gbk files ([], []) ⟨f, hf, hpass, hbad⟩

/-- C8 witness: one unparseable file and one valid-parse file of an invalid
class, both passing the filters; each aborts the import with a TypeError. -/
theorem claim_C8_gbk_import_aborts_witness :
    (process_gbk_filef ["nrps"] (fun _ => "Others") 0 true
        ⟨"bad.gbk", Except.error "ValueError"⟩ = GbkResult.retNone) ∧
    (process_gbk_filef ["nrps"] (fun _ => "Others") 0 true
        ⟨"skip.gbk", Except.ok [⟨10, ["terpene"], 5⟩]⟩ = GbkResult.retFalse) ∧
    (∃ msg, get_gbk_files ["nrps"] (fun _ => "Others") 0 true ["*"] []
        [⟨"bad.gbk", Except.error "ValueError"⟩] = Except.error msg) := by
  obtain ⟨h1, h2, h3⟩ := claim_C8_gbk_import_aborts ["nrps"]
    (fun _ => "Others") 0 true ["*"] []
    [⟨"bad.gbk", Except.error "ValueError"⟩]
  refine ⟨h1 ⟨"bad.gbk", Except.error "ValueError"⟩ "ValueError" rfl, ?_, ?_⟩
  · exact h2 ⟨"skip.gbk", Except.ok [⟨10, ["terpene"], 5⟩]⟩
      [⟨10, ["terpene"], 5⟩] rfl (by decide) (by decide)
  · refine h3 ⟨"bad.gbk", Except.error "ValueError"⟩ (by simp) (by decide) ?_
    exact Or.inl (h1 ⟨"bad.gbk", Except.error "ValueError"⟩ "ValueError" rfl)

/-! ### Claim C9: valid classes and the sorting loop -/

/-- Membership in the computed valid-class set. -/
lemma mem_setValidClasses {bgc_class_weight_keys banned_classes : List String}
    {v : String} :
    v ∈ setValidClasses bgc_class_weight_keys banned_classes ↔
      (∃ k ∈ bgc_class_weight_keys, v = pyLower k) ∧
        v ∉ banned_classes.map (fun a => pyLower (pyStrip a)) := by
  unfold setValidClasses
  rw [List.mem_filter, List.mem_dedup, List.mem_map]
  constructor
  · rintro ⟨⟨k, hk, hv⟩, hnb⟩
    have hnb' : v ∉ (banned_classes.map (fun a => pyLower (pyStrip a))).dedup :=
      of_decide_eq_true hnb
    rw [List.mem_dedup] at hnb'
    exact ⟨⟨k, hk, hv.symm⟩, hnb'⟩
  · rintro ⟨⟨k, hk, hv⟩, hnb⟩
    refine ⟨⟨k, hk, hv.symm⟩, decide_eq_true ?_⟩
    rw [List.mem_dedup]
    exact hnb

/-- Every append event of the sorting loop targets a class group whose
lowered name is a valid class. -/
lemma sortClassAppendsOne_target_valid {valid_classes : List String}
    {hybrids : Bool} {sort_bgc : String → String} {idx : Nat} {product : String}
    {gi : String × Nat}
    (h : gi ∈ sortClassAppendsOne valid_classes hybrids sort_bgc idx product) :
    pyLower gi.1 ∈ valid_classes := by
  have e1 : pyLower "NRPS" = "nrps" := by decide
  have e2 : pyLower "PKSI" = "pksi" := by decide
  have e3 : pyLower "PKSother" = "pksother" := by decide
  unfold sortClassAppendsOne at h
  rcases List.mem_append.1 h with h | h
  · by_cases hmain : pyLower (sort_bgc product) ∈ valid_classes
    · rw [if_pos hmain, List.mem_singleton] at h
      subst h
      exact hmain
    · rw [if_neg hmain] at h
      exact absurd h (List.not_mem_nil _)
  · by_cases hhyb : hybrids = true
    · rw [if_pos hhyb] at h
      rcases List.mem_append.1 h with h | h
      · by_cases hpc : sort_bgc product = "PKS-NRP_Hybrids"
        · rw [if_pos hpc] at h
          rcases List.mem_append.1 h with h12 | h3
          · rcases List.mem_append.1 h12 with h1 | h2
            · by_cases hn : "nrps" ∈ valid_classes
              · rw [if_pos hn, List.mem_singleton] at h1
                subst h1
                rw [e1]
                exact hn
              · rw [if_neg hn] at h1
                exact absurd h1 (List.not_mem_nil _)
            · by_cases hc : (pyIn "t1pks" product &&
                  decide ("pksi" ∈ valid_classes)) = true
              · rw [if_pos hc, List.mem_singleton] at h2
                subst h2
                rw [e2]
                exact of_decide_eq_true ((Bool.and_eq_true _ _ ▸ hc).2)
              · rw [if_neg hc] at h2
                exact absurd h2 (List.not_mem_nil _)
          · by_cases hc : (!pyIn "t1pks" product &&
                decide ("pksother" ∈ valid_classes)) = true
            · rw [if_pos hc, List.mem_singleton] at h3
              subst h3
              rw [e3]
              exact of_decide_eq_true ((Bool.and_eq_true _ _ ▸ hc).2)
            · rw [if_neg hc] at h3
              exact absurd h3 (List.not_mem_nil _)
        · rw [if_neg hpc] at h
          exact absurd h (List.not_mem_nil _)
      · by_cases hoth : sort_bgc product = "Others" ∧ pyIn "." product = true
        · rw [if_pos hoth, List.mem_map] at h
          obtain ⟨s, hs, rfl⟩ := h
          have hcond := (List.mem_filter.1 hs).2
          exact of_decide_eq_true ((Bool.and_eq_true _ _ ▸ hcond).1)
        · rw [if_neg hoth] at h
          exact absurd h (List.not_mem_nil _)
    · rw [if_neg hhyb] at h
      exact absurd h (List.not_mem_nil _)

/-- C9 counterexample: with the hybrid class banned by the user but the
hybrids option on, a cluster predicted as PKS-NRP_Hybrids is still appended
to the NRPS working set although its own lowered predicted class is not a
valid class. -/
theorem claim_C9_counterexample :
    (("NRPS", 0) ∈ sortClassAppends
      (setValidClasses ["NRPS", "PKS-NRP_Hybrids"] ["PKS-NRP_Hybrids"]) true
      (fun _ => "PKS-NRP_Hybrids") (fun _ => false) ["hybridproduct"]) ∧
    pyLower ((fun _ : String => "PKS-NRP_Hybrids")
        (["hybridproduct"].getD 0 "")) ∉
      setValidClasses ["NRPS", "PKS-NRP_Hybrids"] ["PKS-NRP_Hybrids"] := by
  decide

/-- C9 amended: the computed valid-class set is exactly the lowered
weight-table keys minus the stripped, lowered user-banned classes (i); every
append event of the BGC sorting loop targets a class group whose lowered
name is a valid class - the cluster's own predicted class need not be one,
as the hybrids option appends hybrid clusters into pure target classes (ii);
hence every class group receiving a member has a weight-table key of equal
lowered name (iii). -/
theorem claim_C9_valid_classes_amended
    (bgc_class_weight_keys banned_classes : List String) (hybrids : Bool)
    (sort_bgc : String → String) (skip : Nat → Bool) (products : List String) :
    (∀ v, v ∈ setValidClasses bgc_class_weight_keys banned_classes ↔
      (∃ k ∈ bgc_class_weight_keys, v = pyLower k) ∧
        v ∉ banned_classes.map (fun a => pyLower (pyStrip a))) ∧
    (∀ gi ∈ sortClassAppends
        (setValidClasses bgc_class_weight_keys banned_classes) hybrids
        sort_bgc skip products,
      pyLower gi.1 ∈ setValidClasses bgc_class_weight_keys banned_classes) ∧
    (∀ gi ∈ sortClassAppends
        (setValidClasses bgc_class_weight_keys banned_classes) hybrids
        sort_bgc skip products,
      ∃ k ∈ bgc_class_weight_keys, pyLower gi.1 = pyLower k ∧
        pyLower gi.1 ∉ banned_classes.map (fun a => pyLower (pyStrip a))) := by
  have h2 : ∀ gi ∈ sortClassAppends
      (setValidClasses bgc_class_weight_keys banned_classes) hybrids
      sort_bgc skip products,
      pyLower gi.1 ∈ setValidClasses bgc_class_weight_keys banned_classes := by
    intro gi hgi
    unfold sortClassAppends at hgi
    rw [List.mem_flatten] at hgi
    obtain ⟨evs, hevs, hin⟩ := hgi
    rw [List.mem_map] at hevs
    obtain ⟨ip, _, hevs⟩ := hevs
    by_cases hskip : skip ip.1 = true
    · rw [if_pos hskip] at hevs
      rw [← hevs] at hin
      exact absurd hin (List.not_mem_nil _)
    · rw [if_neg hskip] at hevs
      rw [← hevs] at hin
      exact sortClassAppendsOne_target_valid hin
  refine ⟨fun v => mem_setValidClasses, h2, fun gi hgi => ?_⟩
  obtain ⟨⟨k, hk, hv⟩, hnb⟩ := mem_setValidClasses.1 (h2 gi hgi)
  exact ⟨k, hk, hv, hnb⟩

/-- C9 witness: the amended statement evaluated on a run with one weight key
and one cluster sorted into its class. -/
theorem claim_C9_valid_classes_witness :
    ∃ k ∈ ["NRPS"], pyLower (("NRPS", 0) : String × Nat).1 = pyLower k ∧
      pyLower (("NRPS", 0) : String × Nat).1 ∉
        ([] : List String).map (fun a => pyLower (pyStrip a)) :=
  (claim_C9_valid_classes_amended ["NRPS"] [] false (fun _ => "NRPS")
    (fun _ => false) ["p"]).2.2 ("NRPS", 0) (by decide)

end BigScape
